import Mathlib

/-!
Verification of the heimdall artifact server (Go) against its design
specification.  The Go sources are shallowly embedded: Go path handling
(path.Clean, path.Join, strings.TrimPrefix, ...) is re-implemented on
character lists, the S3 backend is modelled as the sequence of pages it
returns, the object store as an association list of keys to byte lists,
and upstream proxy HTTP exchanges as functions from URL to response.
-/

namespace Heimdall

deriving instance DecidableEq for Except

/-! ## Go string primitives (strings.TrimPrefix / TrimSuffix / HasPrefix / Contains) -/

/-- strings.TrimPrefix: drop pre when it is a prefix of s, else return s unchanged. -/
def trimPrefixStr (s pre : String) : String :=
  if pre.data.isPrefixOf s.data then String.mk (s.data.drop pre.data.length) else s

/-- strings.TrimSuffix: drop suf when it is a suffix of s, else return s unchanged. -/
def trimSuffixStr (s suf : String) : String :=
  if suf.data.isSuffixOf s.data then String.mk (s.data.take (s.data.length - suf.data.length)) else s

/-- strings.HasPrefix. -/
def hasPrefixStr (s pre : String) : Bool :=
  pre.data.isPrefixOf s.data

/-- strings.HasSuffix. -/
def hasSuffixStr (s suf : String) : Bool :=
  suf.data.isSuffixOf s.data

/-- strings.Contains for a single character. -/
def strContains (s : String) (c : Char) : Bool :=
  s.data.contains c

/-- An ASCII whitespace character (the fragment of unicode.IsSpace that the
paths handled here can contain). -/
def isSpaceChar (c : Char) : Bool :=
  c = ' ' ∨ c = '\t' ∨ c = '\n' ∨ c = '\r'

/-- strings.TrimSpace restricted to ASCII whitespace. -/
def trimSpaceStr (s : String) : String :=
  String.mk (((s.data.dropWhile isSpaceChar).reverse.dropWhile isSpaceChar).reverse)

/-! ## Go path.Clean / path.Join

path.Clean is implemented by splitting on the slash character and running
the standard segment stack algorithm; this is semantically the algorithm
of Go's path.Clean, stated segment-wise. -/

/-- Split a character list on the slash character.  Always returns at least
one (possibly empty) segment, like strings.Split. -/
def splitSlash : List Char → List (List Char)
  | [] => [[]]
  | c :: rest =>
    if c = '/' then [] :: splitSlash rest
    else
      match splitSlash rest with
      | [] => [[c]]
      | s :: ss => (c :: s) :: ss

/-- Join segments back with slashes (inverse of splitSlash). -/
def joinSegs : List (List Char) → List Char
  | [] => []
  | [s] => s
  | s :: rest => s ++ '/' :: joinSegs rest

/-- A path segment that survives cleaning: non-empty and not a dot segment. -/
def goodSeg (s : List Char) : Prop :=
  s ≠ [] ∧ s ≠ ['.'] ∧ s ≠ ['.', '.']

instance (s : List Char) : Decidable (goodSeg s) := by
  unfold goodSeg; infer_instance

/-- The segment-stack loop of Go's path.Clean.  The stack is kept in
reversed order (head is the most recently written element).  For a rooted
path a dotdot at the root is dropped; for an unrooted path it is kept. -/
def cleanStack (rooted : Bool) : List (List Char) → List (List Char) → List (List Char)
  | [], acc => acc
  | seg :: rest, acc =>
    if seg = [] ∨ seg = ['.'] then cleanStack rooted rest acc
    else if seg = ['.', '.'] then
      match acc with
      | t :: acc' =>
        if rooted ∨ t ≠ ['.', '.'] then cleanStack rooted rest acc'
        else cleanStack rooted rest (seg :: acc)
      | [] =>
        if rooted then cleanStack rooted rest []
        else cleanStack rooted rest [seg]
    else cleanStack rooted rest (seg :: acc)

/-- Whether a path is rooted (starts with a slash). -/
def isRooted (s : String) : Bool :=
  match s.data with
  | c :: _ => c = '/'
  | [] => false

/-- Go path.Clean. -/
def goClean (s : String) : String :=
  let rooted := isRooted s
  let stack := (cleanStack rooted (splitSlash s.data) []).reverse
  match stack with
  | [] => if rooted then "/" else "."
  | _ => String.mk ((if rooted then ['/'] else []) ++ joinSegs stack)

/-- Go path.Join restricted to two elements: empty elements are dropped and
the result is cleaned. -/
def goJoin (a b : String) : String :=
  if a = "" ∧ b = "" then ""
  else if a = "" then goClean b
  else if b = "" then goClean a
  else goClean (a ++ "/" ++ b)

/-- Go path.Join for three elements: empty elements are dropped and the
rest joined with slashes and cleaned. -/
def goJoin3 (a b c : String) : String :=
  if a = "" then goJoin b c
  else if b = "" then goJoin a c
  else if c = "" then goJoin a b
  else goClean (a ++ "/" ++ b ++ "/" ++ c)

/-- ASCII lowering of one character (the ASCII fragment of strings.ToLower,
which is all the checksum-extension check exercises). -/
def asciiLowerChar (c : Char) : Char :=
  if 'A' ≤ c ∧ c ≤ 'Z' then Char.ofNat (c.toNat + 32) else c

/-- strings.ToLower restricted to ASCII case folding. -/
def asciiLower (s : String) : String :=
  String.mk (s.data.map asciiLowerChar)

/-! ## Data model

storage.Entry from s3store.go; sizes are Go int64, represented as Int
(no arithmetic is performed on them, so overflow cannot occur).
The Go field name type is a Lean keyword and is rendered typ. -/

/-- storage.Entry. -/
structure GoEntry where
  name : String
  path : String
  typ : String
  size : Int
deriving DecidableEq, Repr

/-- Byte sequences: Go []byte as lists of byte values. -/
abbrev ByteSeq := List Nat

/-- Bytes of a Go string literal (code points; ASCII in every use here). -/
def strBytes (s : String) : ByteSeq :=
  s.data.map Char.toNat

/-- The object store contents at the backend: an association list from full
backend key to object bytes.  Newest binding shadows older ones, which gives
put-overwrites semantics. -/
abbrev KV := List (String × ByteSeq)

/-- Write an object (PutObject at the backend level). -/
def kvPut (σ : KV) (k : String) (v : ByteSeq) : KV :=
  (k, v) :: σ

/-- Read an object, none when absent (the NotFound classification). -/
def kvGet (σ : KV) (k : String) : Option ByteSeq :=
  (σ.find? (fun p => p.1 = k)).map (fun p => p.2)

/-! ## Hashing

crypto/sha1 and crypto/md5 are Go standard library collaborators, not
repository code; the development is parametric in the two digest functions
and embeds exactly how the repository routes data through them. -/

/-- The pair of digest functions used by the repository. -/
structure HashImpl where
  sha1 : ByteSeq → ByteSeq
  md5 : ByteSeq → ByteSeq

/-- One lowercase hex digit. -/
def hexDigit (n : Nat) : Char :=
  (("0123456789abcdef".data).getD (n % 16) '0')

/-- encoding/hex.EncodeToString: two lowercase hex digits per byte. -/
def hexEncode (bs : ByteSeq) : String :=
  String.mk (bs.flatMap (fun b => [hexDigit ((b / 16) % 16), hexDigit (b % 16)]))

/-! ## KeyStore (storage.Store): key normalization -/

/-- The storage root: Store.prefix in s3store.go (already slash-trimmed by
the constructor).  The Go field name prefix is a Lean keyword and is
rendered root. -/
structure StoreCfg where
  root : String
deriving DecidableEq, Repr

/-- Store.key: join the cleaned key with the configured root. -/
def StoreCfg.keyFn (s : StoreCfg) (raw : String) : String :=
  if s.root = "" then raw
  else trimPrefixStr (goJoin s.root raw) "/"

/-- Store.cleanKey: reject empty input, clean rooted, strip the slash,
reject degenerate results, then apply the root. -/
def StoreCfg.cleanKey (s : StoreCfg) (raw : String) : Except String String :=
  if raw = "" then .error "empty key"
  else
    let cleaned := trimPrefixStr (goClean ("/" ++ raw)) "/"
    if cleaned = "" ∨ cleaned = "." then .error "invalid key"
    else .ok (s.keyFn cleaned)

/-- Store.Get against the modelled backend: cleanKey then lookup, with the
backend not-found shapes collapsed into one NotFound condition. -/
def storeGet (s : StoreCfg) (σ : KV) (raw : String) : Except String ByteSeq :=
  match s.cleanKey raw with
  | .error e => .error e
  | .ok k =>
    match kvGet σ k with
    | some v => .ok v
    | none => .error "NotFound"

/-- Store.Put against the modelled backend: cleanKey then write.  The
presigned-upload HTTP plumbing can only fail at the boundary; the model
captures the successful upload path. -/
def storePut (s : StoreCfg) (σ : KV) (raw : String) (v : ByteSeq) : Except String KV :=
  match s.cleanKey raw with
  | .error e => .error e
  | .ok k => .ok (kvPut σ k v)

/-! ## KeyStore: paginated directory listing (Store.List)

The S3 backend is modelled as the sequence of ListObjectsV2 pages it
returns for the query: pages after the last one correspond to
IsTruncated = false.  Each page carries CommonPrefixes and Contents. -/

/-- One object record in a ListObjectsV2 Contents block. -/
structure S3Obj where
  key : String
  size : Int
deriving DecidableEq, Repr

/-- One ListObjectsV2 response page. -/
structure S3Page where
  cps : List String
  objs : List S3Obj
deriving DecidableEq, Repr

/-- The listing prefix p computed by Store.List from the raw prefix and the
configured root (clean, strip leading slash, force trailing slash, join the
root and force the slash again). -/
def listPfxOf (root raw : String) : String :=
  let p := trimPrefixStr (goClean ("/" ++ raw)) "/"
  let p := if p ≠ "" ∧ ¬hasSuffixStr p "/" then p ++ "/" else p
  if root ≠ "" then
    let q := trimPrefixStr (goJoin root p) "/"
    if q ≠ "" ∧ ¬hasSuffixStr q "/" then q ++ "/" else q
  else p

/-- Turn one CommonPrefixes item into a dir entry (trailing slash on name
and path, no size), or nothing when it degenerates to the prefix itself. -/
def dirEntryOf (p basePath : String) (cp : String) : Option GoEntry :=
  let k := trimSuffixStr (trimPrefixStr cp p) "/"
  if k = "" then none
  else some { name := k ++ "/", path := goJoin basePath k ++ "/", typ := "dir", size := 0 }

/-- Turn one Contents object into a file entry; the object equal to the
queried prefix itself (with or without the slash) is excluded, as are keys
from deeper levels. -/
def fileEntryOf (p basePath : String) (o : S3Obj) : Option GoEntry :=
  if o.key = p ∨ o.key = trimSuffixStr p "/" then none
  else
    let k := trimPrefixStr o.key p
    if strContains k '/' then none
    else if k = "" then none
    else some { name := k, path := goJoin basePath k, typ := "file", size := o.size }

/-- The entries contributed by one backend page, in the order Store.List
appends them (dirs from CommonPrefixes first, then files from Contents). -/
def pageEntries (p basePath : String) (pg : S3Page) : List GoEntry :=
  pg.cps.filterMap (dirEntryOf p basePath) ++ pg.objs.filterMap (fileEntryOf p basePath)

/-- The accumulation loop of Store.List: append each page, truncate and stop
once the limit is reached, otherwise follow the continuation to the next
page until the backend is exhausted. -/
def listLoop (p basePath : String) (lim : Nat) : List S3Page → List GoEntry → List GoEntry
  | [], acc => acc
  | pg :: rest, acc =>
    let acc' := acc ++ pageEntries p basePath pg
    if lim ≤ acc'.length then acc'.take lim else listLoop p basePath lim rest acc'

/-- Store.List.  The limit is a Go int32; non-positive limits default
to 100. -/
def storeList (root : String) (pages : List S3Page) (raw : String) (limit : Int) : List GoEntry :=
  let p := listPfxOf root raw
  let lim := (if limit ≤ 0 then (100 : Int) else limit).toNat
  listLoop p (trimSuffixStr p "/") lim pages []

/-! ## Proxy subsystem (internal/server/proxy.go)

ProxyManager works against the Storage interface; here the interface-level
store is the KV association list keyed by the raw key handed to Put, and
the registry read ProxyManager.List is the given proxies list.  Upstream
HTTP exchanges are a function from URL to response. -/

/-- server.Proxy. -/
structure GoProxy where
  name : String
  url : String
deriving DecidableEq, Repr

/-- The reserved namespace proxyConfigPrefix under which proxy definitions
are stored. -/
def cfgNs : String := "__proxycfg__/"

/-- The upstream response to one GET: a status code with content type and
body, or a transport error. -/
inductive UpResp where
  | resp (code : Nat) (ct : String) (body : ByteSeq)
  | netErr
deriving DecidableEq, Repr

/-- Errors surfaced by FetchAndCache: a typed upstream status
(ProxyStatusError) or a plain transport error. -/
inductive FErr where
  | status (code : Nat)
  | net
deriving DecidableEq, Repr

/-- findByName: first registered proxy with the given name. -/
def findByName (proxies : List GoProxy) (n : String) : Option GoProxy :=
  proxies.find? (fun pr => pr.name = n)

/-- Split a character list at the first slash. -/
def splitFirstSlash : List Char → Option (List Char × List Char)
  | [] => none
  | c :: rest =>
    if c = '/' then some ([], rest)
    else
      match splitFirstSlash rest with
      | none => none
      | some (a, b) => some (c :: a, b)

/-- splitProxyKey: strings.SplitN(TrimPrefix(key, "/"), "/", 2); fails when
there is no second segment. -/
def splitProxyKey (key : String) : Option (String × String) :=
  match splitFirstSlash (trimPrefixStr key "/").data with
  | none => none
  | some (a, b) => some (String.mk a, String.mk b)

/-- The upstream URL built for an artifact: base with trailing slashes
stripped, a slash, then the artifact path. -/
def urlOf (pr : GoProxy) (apath : String) : String :=
  trimSuffixStr pr.url "/" ++ "/" ++ apath

/-- The checksum-extension test of FetchAndCache (case-insensitive). -/
def isChecksumPath (s : String) : Bool :=
  hasSuffixStr (asciiLower s) ".sha1" ∨ hasSuffixStr (asciiLower s) ".md5"

/-- ProxyManager.FetchAndCache: split the key, resolve the proxy, GET
upstream; 404 is a soft miss, any other non-2xx a typed status error; on
success the body is cached and, unless the artifact is itself a checksum
file, the two sidecar digests are written right after it. -/
def fetchAndCache (H : HashImpl) (proxies : List GoProxy) (up : String → UpResp)
    (σ : KV) (key : String) : Except FErr (Bool × KV) :=
  match splitProxyKey key with
  | none => .ok (false, σ)
  | some (name, apath) =>
    let isCk := isChecksumPath apath
    match findByName proxies name with
    | none => .ok (false, σ)
    | some pr =>
      match up (urlOf pr apath) with
      | .netErr => .error .net
      | .resp code _ct body =>
        if code = 404 then .ok (false, σ)
        else if 300 ≤ code then .error (.status code)
        else
          let σ₁ := kvPut σ key body
          if isCk then .ok (true, σ₁)
          else
            let sha1sum := hexEncode (H.sha1 body)
            let md5sum := hexEncode (H.md5 body)
            .ok (true, kvPut (kvPut σ₁ (key ++ ".sha1") (strBytes sha1sum))
                            (key ++ ".md5") (strBytes md5sum))

/-- The fallback loop of FetchFromAny, carrying the zero-initialized
remembered status (Go zero value 0 means none remembered). -/
def ffaLoop (H : HashImpl) (proxies : List GoProxy) (up : String → UpResp)
    (apath : String) : List GoProxy → Nat → KV → Except FErr (String × Bool × KV)
  | [], last, σ => if last ≠ 0 then .error (.status last) else .ok ("", false, σ)
  | pr :: rest, last, σ =>
    let key := goJoin pr.name apath
    match fetchAndCache H proxies up σ key with
    | .error (.status c) =>
      if c = 404 ∨ c = 401 ∨ c = 403 then ffaLoop H proxies up apath rest c σ
      else .error (.status c)
    | .error .net => .error .net
    | .ok (found, σ') =>
      if found then .ok (key, true, σ') else ffaLoop H proxies up apath rest last σ'

/-- ProxyManager.FetchFromAny. -/
def fetchFromAny (H : HashImpl) (proxies : List GoProxy) (up : String → UpResp)
    (σ : KV) (apath : String) : Except FErr (String × Bool × KV) :=
  ffaLoop H proxies up apath proxies 0 σ

/-- How the FetchFromAny loop reacts to one FetchAndCache outcome: a cache
hit ends the loop, a soft miss moves on unchanged, a 404/401/403 status is
remembered and the loop moves on, anything else aborts. -/
inductive Attempt where
  | hit
  | soft
  | remember (code : Nat)
  | abort (e : FErr)
deriving DecidableEq, Repr

/-- Classify one FetchAndCache result the way the FetchFromAny loop does. -/
def classifyFA (r : Except FErr (Bool × KV)) : Attempt :=
  match r with
  | .ok (true, _) => .hit
  | .ok (false, _) => .soft
  | .error (.status c) =>
    if c = 404 ∨ c = 401 ∨ c = 403 then .remember c else .abort (.status c)
  | .error .net => .abort .net

/-- The classified outcome of trying one proxy in FetchFromAny. -/
def attemptOf (H : HashImpl) (proxies : List GoProxy) (up : String → UpResp)
    (σ : KV) (apath : String) (pr : GoProxy) : Attempt :=
  classifyFA (fetchAndCache H proxies up σ (goJoin pr.name apath))

/-- An attempt that lets the loop continue: a soft miss or a remembered
status. -/
def contAttempt : Attempt → Bool
  | .soft => true
  | .remember _ => true
  | _ => false

/-- The remembered last relevant status after scanning a list of proxies,
starting from a previously remembered value (the Go zero value 0 stands
for none). -/
def lastStatus (H : HashImpl) (proxies : List GoProxy) (up : String → UpResp)
    (σ : KV) (apath : String) (l : List GoProxy) (init : Nat) : Nat :=
  l.foldl (fun acc pr =>
    match attemptOf H proxies up σ apath pr with
    | .remember c => c
    | _ => acc) init

/-! ## Proxy directory listing (ProxyManager.ListPath)

The upstream index page is modelled as the list of anchor href attribute
values the HTML walker visits, in document order; url.Parse is taken as the
identity on these plain path references (its Path component). -/

/-- The upstream response to one directory-listing GET. -/
inductive UpListResp where
  | notFound
  | status (code : Nat)
  | ok (hrefs : List String)
deriving DecidableEq, Repr

/-- Processing of one anchor href inside the walker: skip parent links and
empties, normalize, keep only immediate children, classify dir or file.
The path field is path.Join(name, ""), exactly as written. -/
def hrefEntry (href : String) : Option GoEntry :=
  if href = "../" ∨ href = "" then none
  else
    let raw := trimSpaceStr href
    if raw = "" then none
    else
      let norm₀ := trimPrefixStr raw "/"
      let isDir := hasSuffixStr norm₀ "/"
      let norm := trimSuffixStr norm₀ "/"
      if norm = "" then none
      else if strContains norm '/' then none
      else
        let nm := if isDir then norm ++ "/" else norm
        some { name := nm, path := goJoin nm "", typ := if isDir then "dir" else "file", size := 0 }

/-- The walker loop: accumulate anchor entries, stopping as soon as a
positive limit is reached. -/
def lpeLoop (limit : Int) : List String → List GoEntry → List GoEntry
  | [], acc => acc
  | h :: rest, acc =>
    match hrefEntry h with
    | none => lpeLoop limit rest acc
    | some e =>
      let acc' := acc ++ [e]
      if 0 < limit ∧ limit ≤ (acc'.length : Int) then acc' else lpeLoop limit rest acc'

/-- The entries ListPath extracts from an upstream index page. -/
def listPathEntries (hrefs : List String) (limit : Int) : List GoEntry :=
  lpeLoop limit hrefs []

/-- Result triple of ListPath: entries, handled flag, error flag. -/
structure PLRes where
  entries : List GoEntry
  handled : Bool
  err : Bool
deriving DecidableEq, Repr

/-- ProxyManager.ListPath: resolve the proxy from the first path segment,
GET the upstream directory URL (forced to end in a slash), treat 404 as an
empty listing, surface other non-2xx as an error, else parse anchors. -/
def listPath (proxies : List GoProxy) (upl : String → UpListResp)
    (key : String) (limit : Int) : PLRes :=
  let trimmed := trimPrefixStr key "/"
  let (name, apath) :=
    match splitFirstSlash trimmed.data with
    | none => (trimmed, "")
    | some (a, b) => (String.mk a, String.mk b)
  if name = "" then ⟨[], false, false⟩
  else
    match findByName proxies name with
    | none => ⟨[], false, false⟩
    | some pr =>
      let target₀ := trimSuffixStr pr.url "/" ++ "/" ++ apath
      let target := if hasSuffixStr target₀ "/" then target₀ else target₀ ++ "/"
      match upl target with
      | .notFound => ⟨[], true, false⟩
      | .status _ => ⟨[], true, true⟩
      | .ok hrefs => ⟨listPathEntries hrefs limit, true, false⟩

/-! ## Resolution orchestrator (internal/server/server.go)

The handlers are written against the Storage interface; the local listing
is therefore a parameter localList (the store.List result per prefix and
limit), the registry read is the proxies list, and upstream directory
listings are the upl function.  This matches how the repository's own
tests drive the handlers through mock stores. -/

/-- Server.maybeListProxy: delegate to ListPath on the trimmed prefix and
rewrite each entry path under it. -/
def maybeListProxy (proxies : List GoProxy) (upl : String → UpListResp)
    (pfxQ : String) (limit : Int) : PLRes :=
  let clean := trimPrefixStr (trimSpaceStr pfxQ) "/"
  if clean = "" then ⟨[], false, false⟩
  else
    let r := listPath proxies upl clean limit
    if r.err ∨ ¬r.handled then r
    else ⟨r.entries.map (fun e => { e with path := goJoin clean e.name }), true, false⟩

/-- The mutable state of the listPackages accumulation: collected entries,
seen names, shared remaining budget. -/
structure LPState where
  keys : List GoEntry
  seen : List String
  remaining : Int
deriving DecidableEq, Repr

/-- The trailing-slash normalization applied by the add closure of
Server.listPackages to dir, proxy and group entries. -/
def lpNorm (e : GoEntry) : GoEntry :=
  if e.typ = "dir" ∨ e.typ = "proxy" ∨ e.typ = "group" then
    { e with
      name := if hasSuffixStr e.name "/" then e.name else e.name ++ "/",
      path := if hasSuffixStr e.path "/" then e.path else e.path ++ "/" }
  else e

/-- The add closure of Server.listPackages: filter the reserved namespace,
force a trailing slash on dir, proxy and group entries, deduplicate by
name, and consume one unit of the shared budget. -/
def lpAdd (st : LPState) (e : GoEntry) : LPState :=
  let trimmed := trimPrefixStr e.path "packages/"
  if hasPrefixStr trimmed cfgNs ∨ hasPrefixStr e.name cfgNs then st
  else
    let e' := lpNorm e
    if st.seen.contains e'.name then st
    else ⟨st.keys ++ [e'], e'.name :: st.seen, st.remaining - 1⟩

/-- The local stage of listPackages: rewrite each local entry under
packages/ and add it, returning early once the budget is exhausted
(the Bool records the early return). -/
def lpLocalLoop : List GoEntry → LPState → LPState × Bool
  | [], st => (st, false)
  | e :: rest, st =>
    let st' := lpAdd st { e with path := goJoin "packages" e.path }
    if st'.remaining = 0 then (st', true) else lpLocalLoop rest st'

/-- The per-proxy inner stage of listPackages: rewrite each remote entry
under packages/(proxy name)/ and add it. -/
def lpProxyEntriesLoop (prName : String) : List GoEntry → LPState → LPState × Bool
  | [], st => (st, false)
  | e :: rest, st =>
    let st' := lpAdd st { e with path := goJoin3 "packages" prName e.name }
    if st'.remaining = 0 then (st', true) else lpProxyEntriesLoop prName rest st'

/-- The proxy fan-out stage of listPackages: for each registered proxy, in
listing order, fetch its remote listing at the remainder bounded by the
shared budget; a failed listing is skipped. -/
def lpProxyLoop (proxies : List GoProxy) (upl : String → UpListResp)
    (clean : String) : List GoProxy → LPState → LPState × Bool
  | [], st => (st, false)
  | pr :: rest, st =>
    let r := listPath proxies upl (goJoin pr.name clean) st.remaining
    if r.err then lpProxyLoop proxies upl clean rest st
    else
      match lpProxyEntriesLoop pr.name r.entries st with
      | (st', true) => (st', true)
      | (st', false) => lpProxyLoop proxies upl clean rest st'

/-- Server.listPackages: one shared budget across the local stage and the
per-proxy stages. -/
def listPackages (proxies : List GoProxy) (upl : String → UpListResp)
    (localList : String → Int → List GoEntry) (pfxQ : String) (limit : Int) : List GoEntry :=
  let clean := trimPrefixStr (trimPrefixStr (trimPrefixStr (trimSpaceStr pfxQ) "/") "packages") "/"
  let remaining := if limit ≤ 0 then (100 : Int) else limit
  let st₀ : LPState := ⟨[], [], remaining⟩
  let l := localList clean remaining
  match lpLocalLoop l st₀ with
  | (st, true) => st.keys
  | (st, false) =>
    match lpProxyLoop proxies upl clean proxies st with
    | (st', _) => st'.keys

/-- The synthetic root group entry. -/
def pkgGroupEntry : GoEntry :=
  { name := "packages/", path := "packages/", typ := "group", size := 0 }

/-- The synthetic root entry for one registered proxy. -/
def proxyEntryOf (pr : GoProxy) : GoEntry :=
  { name := pr.name ++ "/", path := pr.name ++ "/", typ := "proxy", size := 0 }

/-- Server.handleCatalog: the packages namespace delegates to
listPackages; otherwise list locally, merge a proxy listing ahead of local
entries when the path names a proxy (proxy names win ties), strip the
reserved namespace, and at root append the synthetic group and proxy
entries. -/
def handleCatalog (proxies : List GoProxy) (upl : String → UpListResp)
    (localList : String → Int → List GoEntry) (pfxQ : String) (limit : Int) : List GoEntry :=
  if hasPrefixStr (trimPrefixStr pfxQ "/") "packages" then
    listPackages proxies upl localList pfxQ limit
  else
    let keys := localList pfxQ limit
    let r := maybeListProxy proxies upl pfxQ limit
    let keys :=
      if ¬r.err ∧ r.handled then
        let merged := r.entries
        let existing := merged.map (fun e => e.name)
        merged ++ keys.filter (fun e =>
          ¬hasPrefixStr e.path cfgNs ∧ ¬existing.contains e.name)
      else keys
    let keys := keys.filter (fun e => ¬hasPrefixStr e.path cfgNs)
    if pfxQ = "" ∨ pfxQ = "/" then
      keys ++ [pkgGroupEntry] ++ proxies.map proxyEntryOf
    else keys

/-! ## Upload handler (Server.handlePut + Store.Put)

The request body is buffered, hashed in one pass, stored, and then the two
sidecar checksum objects are written.  Response statuses are outside the
model; the Except value distinguishes success (201) from failure. -/

/-- Server.handlePut over the real Store (cleanKey plus backend write). -/
def handlePut (H : HashImpl) (s : StoreCfg) (σ : KV) (key : String)
    (body : ByteSeq) : Except String KV :=
  let sha1sum := hexEncode (H.sha1 body)
  let md5sum := hexEncode (H.md5 body)
  match storePut s σ key body with
  | .error e => .error e
  | .ok σ₁ =>
    match storePut s σ₁ (key ++ ".sha1") (strBytes sha1sum) with
    | .error e => .error e
    | .ok σ₂ =>
      match storePut s σ₂ (key ++ ".md5") (strBytes md5sum) with
      | .error e => .error e
      | .ok σ₃ => .ok σ₃

/-! ## Checksum scanner (internal/server/scanner.go)

RunChecksumScanner guards each tick with a single-slot channel: a tick
either wins the slot and launches one cleanup-then-generate run in a
goroutine, or loses and is skipped with a warning; run completion releases
the slot.  Modelled as a transition system over tick and finish events. -/

/-- The two jobs of one scan run, in launch order. -/
inductive ScanJob where
  | cleanup
  | generate
deriving DecidableEq, Repr

/-- Scanner state: tokens held in the single-slot channel, number of scan
executions currently active, the log of launched runs, and the number of
skipped (warned) ticks. -/
structure ScanState where
  tokens : Nat
  active : Nat
  launches : List (List ScanJob)
  skips : Nat
deriving DecidableEq, Repr

/-- External events: a ticker tick, or completion of an in-flight run. -/
inductive ScanEv where
  | tick
  | finish
deriving DecidableEq, Repr

/-- The scanner transition function: a tick acquires the slot and launches
CleanupBadChecksums then GenerateChecksums as one unit, or is skipped with
a warning when the slot is taken; a finish releases the slot. -/
def scanStep (st : ScanState) : ScanEv → ScanState
  | .tick =>
    if st.tokens < 1 then
      { tokens := st.tokens + 1, active := st.active + 1,
        launches := st.launches ++ [[ScanJob.cleanup, ScanJob.generate]], skips := st.skips }
    else
      { st with skips := st.skips + 1 }
  | .finish =>
    if 0 < st.active then
      { st with tokens := st.tokens - 1, active := st.active - 1 }
    else st

/-- The scanner's initial state: empty slot, nothing launched. -/
def scanInit : ScanState := ⟨0, 0, [], 0⟩

/-- The scanner state after a sequence of events. -/
def scanRun (evs : List ScanEv) : ScanState :=
  evs.foldl scanStep scanInit

/-! ## Lemmas about splitSlash and joinSegs -/

theorem splitSlash_ne_nil (cs : List Char) : splitSlash cs ≠ [] := by
  cases cs with
  | nil => simp [splitSlash]
  | cons c rest =>
    simp only [splitSlash]
    split
    · simp
    · split <;> simp

theorem splitSlash_cons_slash (rest : List Char) :
    splitSlash ('/' :: rest) = [] :: splitSlash rest := by
  simp [splitSlash]

theorem splitSlash_cons_eq (c : Char) (hc : c ≠ '/') (rest s : List Char)
    (ss : List (List Char)) (h : splitSlash rest = s :: ss) :
    splitSlash (c :: rest) = (c :: s) :: ss := by
  simp only [splitSlash, if_neg hc, h]

theorem splitSlash_append (a b : List Char) :
    splitSlash (a ++ '/' :: b) = splitSlash a ++ splitSlash b := by
  induction a with
  | nil => simp [splitSlash]
  | cons c rest ih =>
    by_cases hc : c = '/'
    · subst hc
      simp [splitSlash_cons_slash, ih]
    · cases h : splitSlash rest with
      | nil => exact absurd h (splitSlash_ne_nil rest)
      | cons s ss =>
        have h2 : splitSlash (rest ++ '/' :: b) = s :: (ss ++ splitSlash b) := by
          rw [ih, h]; rfl
        rw [List.cons_append, splitSlash_cons_eq c hc _ _ _ h2,
          splitSlash_cons_eq c hc _ _ _ h]
        rfl

theorem joinSegs_splitSlash (cs : List Char) : joinSegs (splitSlash cs) = cs := by
  induction cs with
  | nil => rfl
  | cons c rest ih =>
    by_cases hc : c = '/'
    · subst hc
      simp only [splitSlash, if_pos rfl]
      cases h : splitSlash rest with
      | nil => exact absurd h (splitSlash_ne_nil rest)
      | cons s ss =>
        rw [h] at ih
        simpa [joinSegs] using ih
    · simp only [splitSlash, if_neg hc]
      cases h : splitSlash rest with
      | nil => exact absurd h (splitSlash_ne_nil rest)
      | cons s ss =>
        rw [h] at ih
        cases ss with
        | nil => simp only [joinSegs] at ih ⊢; simp [ih]
        | cons s2 ss2 => simp only [joinSegs] at ih ⊢; simp [ih]

theorem splitSlash_no_slash (cs : List Char) : ∀ s ∈ splitSlash cs, '/' ∉ s := by
  induction cs with
  | nil =>
    intro s hs
    simp [splitSlash] at hs
    simp [hs]
  | cons c rest ih =>
    intro s hs
    by_cases hc : c = '/'
    · subst hc
      simp [splitSlash] at hs
      rcases hs with h | h
      · simp [h]
      · exact ih s h
    · simp only [splitSlash, if_neg hc] at hs
      cases h : splitSlash rest with
      | nil => exact absurd h (splitSlash_ne_nil rest)
      | cons t ts =>
        rw [h] at hs
        rcases List.mem_cons.mp hs with h1 | h1
        · subst h1
          have ht : '/' ∉ t := ih t (by rw [h]; exact List.mem_cons_self t ts)
          intro hmem
          rcases List.mem_cons.mp hmem with h2 | h2
          · exact hc h2.symm
          · exact ht h2
        · exact ih s (by rw [h]; exact List.mem_cons_of_mem t h1)

theorem splitSlash_single (cs : List Char) (h : '/' ∉ cs) : splitSlash cs = [cs] := by
  induction cs with
  | nil => rfl
  | cons c rest ih =>
    have hc : c ≠ '/' := fun hcc => h (by simp [hcc])
    have hr : '/' ∉ rest := fun hrr => h (List.mem_cons_of_mem c hrr)
    simp only [splitSlash, if_neg hc, ih hr]

theorem splitSlash_joinSegs (segs : List (List Char)) (h0 : segs ≠ [])
    (h1 : ∀ s ∈ segs, '/' ∉ s) : splitSlash (joinSegs segs) = segs := by
  induction segs with
  | nil => exact absurd rfl h0
  | cons s t ih =>
    cases t with
    | nil =>
      simp only [joinSegs]
      exact splitSlash_single s (h1 s (List.mem_cons_self s []))
    | cons s2 t2 =>
      have : joinSegs (s :: s2 :: t2) = s ++ '/' :: joinSegs (s2 :: t2) := rfl
      rw [this, splitSlash_append,
        splitSlash_single s (h1 s (List.mem_cons_self s (s2 :: t2))),
        ih (by simp) (fun x hx => h1 x (List.mem_cons_of_mem s hx))]
      rfl

theorem splitSlash_append_free (cs suf : List Char) (h : '/' ∉ suf) :
    ∃ ss t, splitSlash cs = ss ++ [t] ∧ splitSlash (cs ++ suf) = ss ++ [t ++ suf] := by
  induction cs with
  | nil =>
    refine ⟨[], [], rfl, ?_⟩
    simpa using splitSlash_single suf h
  | cons c rest ih =>
    obtain ⟨ss, t, h1, h2⟩ := ih
    by_cases hc : c = '/'
    · subst hc
      refine ⟨[] :: ss, t, ?_, ?_⟩
      · simp [splitSlash, h1]
      · simp [splitSlash, h2]
    · cases ss with
      | nil =>
        simp only [List.nil_append] at h1 h2
        refine ⟨[], c :: t, ?_, ?_⟩
        · rw [splitSlash_cons_eq c hc _ _ _ h1]
          rfl
        · rw [List.cons_append, splitSlash_cons_eq c hc _ _ _ h2]
          simp
      | cons s0 ss0 =>
        refine ⟨(c :: s0) :: ss0, t, ?_, ?_⟩
        · rw [splitSlash_cons_eq c hc _ _ _ (by rw [h1]; rfl : splitSlash rest = s0 :: (ss0 ++ [t]))]
          rfl
        · rw [List.cons_append,
            splitSlash_cons_eq c hc _ _ _ (by rw [h2]; rfl : splitSlash (rest ++ suf) = s0 :: (ss0 ++ [t ++ suf]))]
          rfl

theorem joinSegs_length (l : List (List Char)) (h : l ≠ []) :
    (joinSegs l).length + 1 = (l.map List.length).sum + l.length := by
  induction l with
  | nil => exact absurd rfl h
  | cons s t ih =>
    cases t with
    | nil => simp [joinSegs]
    | cons s2 t2 =>
      have hj : joinSegs (s :: s2 :: t2) = s ++ '/' :: joinSegs (s2 :: t2) := rfl
      have := ih (by simp)
      rw [hj]
      simp only [List.length_append, List.length_cons, List.map_cons, List.sum_cons] at *
      omega

theorem joinSegs_ne_nil (l : List (List Char)) (h0 : l ≠ [])
    (h1 : ∀ s ∈ l, s ≠ []) : joinSegs l ≠ [] := by
  cases l with
  | nil => exact absurd rfl h0
  | cons s t =>
    cases t with
    | nil => exact h1 s (List.mem_cons_self s [])
    | cons s2 t2 =>
      have hj : joinSegs (s :: s2 :: t2) = s ++ '/' :: joinSegs (s2 :: t2) := rfl
      rw [hj]
      simp

theorem joinSegs_head_mem (l : List (List Char)) (x : List Char) (t : List (List Char))
    (h : l = x :: t) (c : Char) (hc : joinSegs l = c :: (joinSegs l).tail) (hx : x ≠ []) :
    c ∈ x := by
  subst h
  cases t with
  | nil =>
    simp only [joinSegs] at hc
    rw [hc]
    exact List.mem_cons_self c _
  | cons s2 t2 =>
    have hj : joinSegs (x :: s2 :: t2) = x ++ '/' :: joinSegs (s2 :: t2) := rfl
    rw [hj] at hc
    cases x with
    | nil => exact absurd rfl hx
    | cons x0 xr =>
      simp only [List.cons_append] at hc
      have : x0 = c := by
        have := congrArg List.head? hc
        simpa using this
      rw [← this]
      exact List.mem_cons_self x0 xr

/-! ## Lemmas about cleanStack -/

theorem cleanStack_append (r : Bool) (xs ys acc : List (List Char)) :
    cleanStack r (xs ++ ys) acc = cleanStack r ys (cleanStack r xs acc) := by
  induction xs generalizing acc with
  | nil => rfl
  | cons s t ih =>
    simp only [List.cons_append, cleanStack]
    split
    · exact ih acc
    · split
      · split
        · split <;> exact ih _
        · split <;> exact ih _
      · exact ih _

theorem cleanStack_all_good (r : Bool) (segs acc : List (List Char))
    (h : ∀ s ∈ segs, goodSeg s) :
    cleanStack r segs acc = segs.reverse ++ acc := by
  induction segs generalizing acc with
  | nil => simp [cleanStack]
  | cons s t ih =>
    obtain ⟨h1, h2, h3⟩ := h s (List.mem_cons_self s t)
    simp only [cleanStack]
    rw [if_neg (by simp [h1, h2]), if_neg h3,
      ih (s :: acc) (fun x hx => h x (List.mem_cons_of_mem s hx))]
    simp

theorem cleanStack_mem (r : Bool) (segs acc : List (List Char)) :
    ∀ x ∈ cleanStack r segs acc,
      x ∈ acc ∨ (x ∈ segs ∧ goodSeg x) ∨ (r = false ∧ x = ['.', '.']) := by
  induction segs generalizing acc with
  | nil => exact fun x hx => Or.inl hx
  | cons s t ih =>
    intro x hx
    simp only [cleanStack] at hx
    by_cases hA : s = [] ∨ s = ['.']
    · rw [if_pos hA] at hx
      rcases ih acc x hx with h | h | h
      · exact Or.inl h
      · exact Or.inr (Or.inl ⟨List.mem_cons_of_mem s h.1, h.2⟩)
      · exact Or.inr (Or.inr h)
    · rw [if_neg hA] at hx
      by_cases hB : s = ['.', '.']
      · rw [if_pos hB] at hx
        cases acc with
        | cons u acc' =>
          have hx : x ∈ (if r = true ∨ u ≠ ['.', '.'] then cleanStack r t acc'
              else cleanStack r t (s :: u :: acc')) := hx
          by_cases hC : r = true ∨ u ≠ ['.', '.']
          · rw [if_pos hC] at hx
            rcases ih acc' x hx with h | h | h
            · exact Or.inl (List.mem_cons_of_mem u h)
            · exact Or.inr (Or.inl ⟨List.mem_cons_of_mem s h.1, h.2⟩)
            · exact Or.inr (Or.inr h)
          · rw [if_neg hC] at hx
            push_neg at hC
            rcases ih (s :: u :: acc') x hx with h | h | h
            · rcases List.mem_cons.mp h with h1 | h1
              · exact Or.inr (Or.inr ⟨Bool.not_eq_true r ▸ hC.1, h1.trans hB⟩)
              · exact Or.inl h1
            · exact Or.inr (Or.inl ⟨List.mem_cons_of_mem s h.1, h.2⟩)
            · exact Or.inr (Or.inr h)
        | nil =>
          have hx : x ∈ (if r = true then cleanStack r t [] else cleanStack r t [s]) := hx
          by_cases hC : r = true
          · rw [if_pos hC] at hx
            rcases ih [] x hx with h | h | h
            · simp at h
            · exact Or.inr (Or.inl ⟨List.mem_cons_of_mem s h.1, h.2⟩)
            · exact Or.inr (Or.inr h)
          · rw [if_neg hC] at hx
            rcases ih [s] x hx with h | h | h
            · have h1 : x = s := by simpa using h
              exact Or.inr (Or.inr ⟨Bool.not_eq_true r ▸ hC, h1.trans hB⟩)
            · exact Or.inr (Or.inl ⟨List.mem_cons_of_mem s h.1, h.2⟩)
            · exact Or.inr (Or.inr h)
      · rw [if_neg hB] at hx
        rcases ih (s :: acc) x hx with h | h | h
        · rcases List.mem_cons.mp h with h1 | h1
          · refine Or.inr (Or.inl ⟨h1 ▸ List.mem_cons_self s t, ?_⟩)
            subst h1
            exact ⟨fun he => hA (Or.inl he), fun he => hA (Or.inr he), hB⟩
          · exact Or.inl h1
        · exact Or.inr (Or.inl ⟨List.mem_cons_of_mem s h.1, h.2⟩)
        · exact Or.inr (Or.inr h)

theorem cleanStack_true_good (segs : List (List Char)) :
    ∀ x ∈ cleanStack true segs [], goodSeg x := by
  intro x hx
  rcases cleanStack_mem true segs [] x hx with h | h | h
  · simp at h
  · exact h.2
  · simp at h

theorem cleanStack_no_slash (r : Bool) (segs : List (List Char))
    (hs : ∀ s ∈ segs, '/' ∉ s) :
    ∀ x ∈ cleanStack r segs [], '/' ∉ x := by
  intro x hx
  rcases cleanStack_mem r segs [] x hx with h | h | h
  · simp at h
  · exact hs x h.1
  · rw [h.2]
    simp

theorem cleanStack_elem_ne_nil (r : Bool) (segs : List (List Char)) :
    ∀ x ∈ cleanStack r segs [], x ≠ [] := by
  intro x hx
  rcases cleanStack_mem r segs [] x hx with h | h | h
  · simp at h
  · exact h.2.1
  · rw [h.2]
    simp

/-! ## Characterization of goClean and cleanKey -/

/-- The rooted clean stack of a raw key, in writing order: what
path.Clean("/" ++ raw) keeps after the root. -/
def rootStack (raw : String) : List (List Char) :=
  (cleanStack true (splitSlash raw.data) []).reverse

/-- A path all of whose slash segments are clean (non-empty, not dots). -/
def goodPath (s : String) : Prop :=
  ∀ seg ∈ splitSlash s.data, goodSeg seg

instance (s : String) : Decidable (goodPath s) := by
  unfold goodPath; infer_instance

theorem data_slash_append (raw : String) : ("/" ++ raw).data = '/' :: raw.data := by
  rw [String.data_append]
  rfl

theorem trimPrefixStr_slash_cons (l : List Char) :
    trimPrefixStr (String.mk ('/' :: l)) "/" = String.mk l := by
  simp [trimPrefixStr, List.isPrefixOf]

theorem trimPrefixStr_slash_noop (l : List Char) (h : l.head? ≠ some '/') :
    trimPrefixStr (String.mk l) "/" = String.mk l := by
  cases l with
  | nil => rfl
  | cons c t =>
    have hc : c ≠ '/' := by
      intro he
      exact h (by rw [he]; rfl)
    have hb : ('/' == c) = false := by
      simp
      exact fun he => hc he.symm
    simp [trimPrefixStr, List.isPrefixOf, hb]

theorem joinSegs_cons_head (e : List Char) (rest : List (List Char)) :
    ∃ r, joinSegs (e :: rest) = e ++ r := by
  cases rest with
  | nil => exact ⟨[], by simp [joinSegs]⟩
  | cons s2 t2 => exact ⟨'/' :: joinSegs (s2 :: t2), rfl⟩

theorem joinSegs_head_ne_slash (e : List Char) (rest : List (List Char))
    (he : e ≠ []) (hs : '/' ∉ e) : (joinSegs (e :: rest)).head? ≠ some '/' := by
  obtain ⟨r, hr⟩ := joinSegs_cons_head e rest
  rw [hr]
  cases e with
  | nil => exact absurd rfl he
  | cons c t =>
    intro hcon
    simp at hcon
    exact hs (by rw [hcon]; exact List.mem_cons_self _ _)

theorem goClean_slash (raw : String) :
    goClean ("/" ++ raw) =
      if rootStack raw = [] then "/" else String.mk ('/' :: joinSegs (rootStack raw)) := by
  have hdata : ("/" ++ raw).data = '/' :: raw.data := data_slash_append raw
  have hrooted : isRooted ("/" ++ raw) = true := by
    unfold isRooted
    rw [hdata]
    rfl
  have hsplit : splitSlash (("/" ++ raw).data) = [] :: splitSlash raw.data := by
    rw [hdata, splitSlash_cons_slash]
  have hstack : cleanStack true (splitSlash (("/" ++ raw).data)) [] =
      cleanStack true (splitSlash raw.data) [] := by
    rw [hsplit]
    simp [cleanStack]
  unfold goClean
  dsimp only
  rw [hrooted, hstack]
  unfold rootStack
  cases hc : (cleanStack true (splitSlash raw.data) []).reverse with
  | nil => simp
  | cons s t => simp

/-- The cleaned (root-relative) key produced inside Store.cleanKey. -/
theorem cleaned_eq (raw : String) :
    trimPrefixStr (goClean ("/" ++ raw)) "/" =
      if rootStack raw = [] then "" else String.mk (joinSegs (rootStack raw)) := by
  rw [goClean_slash raw]
  by_cases h : rootStack raw = []
  · rw [if_pos h, if_pos h]
    rfl
  · rw [if_neg h, if_neg h]
    exact trimPrefixStr_slash_cons _

theorem rootStack_good (raw : String) : ∀ x ∈ rootStack raw, goodSeg x := by
  intro x hx
  exact cleanStack_true_good _ x (List.mem_reverse.mp hx)

theorem rootStack_no_slash (raw : String) : ∀ x ∈ rootStack raw, '/' ∉ x := by
  intro x hx
  exact cleanStack_no_slash true _ (splitSlash_no_slash raw.data) x (List.mem_reverse.mp hx)

theorem mk_joinSegs_rootStack_ne_empty (raw : String) (h : rootStack raw ≠ []) :
    String.mk (joinSegs (rootStack raw)) ≠ "" := by
  intro he
  have : joinSegs (rootStack raw) = [] := by
    have := congrArg String.data he
    simpa using this
  exact joinSegs_ne_nil _ h (fun s hs => (rootStack_good raw s hs).1) this

theorem splitSlash_joinSegs_rootStack (raw : String) (h : rootStack raw ≠ []) :
    splitSlash (joinSegs (rootStack raw)) = rootStack raw :=
  splitSlash_joinSegs _ h (rootStack_no_slash raw)

theorem mk_joinSegs_rootStack_ne_dot (raw : String) (h : rootStack raw ≠ []) :
    String.mk (joinSegs (rootStack raw)) ≠ "." := by
  intro he
  have hj : joinSegs (rootStack raw) = ['.'] := by
    have := congrArg String.data he
    simpa using this
  have := splitSlash_joinSegs_rootStack raw h
  rw [hj] at this
  have hdot : ['.'] ∈ rootStack raw := by
    rw [← this]
    simp [splitSlash]
  exact (rootStack_good raw _ hdot).2.1 rfl

theorem goodPath_mk_joinSegs_rootStack (raw : String) (h : rootStack raw ≠ []) :
    goodPath (String.mk (joinSegs (rootStack raw))) := by
  intro seg hseg
  rw [show (String.mk (joinSegs (rootStack raw))).data = joinSegs (rootStack raw) from rfl,
    splitSlash_joinSegs_rootStack raw h] at hseg
  exact rootStack_good raw seg hseg

theorem string_empty_iff (a : String) : a = "" ↔ a.data = [] := by
  constructor
  · intro h
    exact congrArg String.data h
  · intro h
    cases a
    simp only at h
    rw [h]

theorem isRooted_append (a b : String) (ha : a ≠ "") :
    isRooted (a ++ b) = isRooted a := by
  cases hd : a.data with
  | nil => exact absurd ((string_empty_iff a).mpr hd) ha
  | cons c t =>
    unfold isRooted
    rw [String.data_append, hd]
    rfl

theorem data_mid_slash (a b : String) : (a ++ "/" ++ b).data = a.data ++ '/' :: b.data := by
  rw [String.data_append, String.data_append]
  simp

/-- The root-dependent stack that Store.key prepends: the cleaning of the
configured root on its own. -/
def rootCfgStack (root : String) : List (List Char) :=
  cleanStack (isRooted root) (splitSlash root.data) []

theorem keyFn_eq (root x : String) (hroot : root ≠ "") (hx : goodPath x) (hxe : x ≠ "") :
    (StoreCfg.mk root).keyFn x =
      String.mk (joinSegs ((rootCfgStack root).reverse ++ splitSlash x.data)) := by
  have hXne : splitSlash x.data ≠ [] := splitSlash_ne_nil x.data
  unfold StoreCfg.keyFn
  rw [if_neg hroot]
  unfold goJoin
  rw [if_neg (by intro h; exact hroot h.1), if_neg hroot, if_neg hxe]
  have hne1 : root ++ "/" ≠ "" := by
    intro h
    have h2 := congrArg String.data h
    rw [String.data_append] at h2
    simp at h2
  have hrooted : isRooted (root ++ "/" ++ x) = isRooted root := by
    rw [isRooted_append (root ++ "/") x hne1]
    exact isRooted_append root "/" hroot
  have hsplit : splitSlash ((root ++ "/" ++ x).data) =
      splitSlash root.data ++ splitSlash x.data := by
    rw [data_mid_slash, splitSlash_append]
  have hstack : cleanStack (isRooted root) (splitSlash ((root ++ "/" ++ x).data)) [] =
      (splitSlash x.data).reverse ++ rootCfgStack root := by
    rw [hsplit, cleanStack_append]
    exact cleanStack_all_good _ _ _ hx
  have hSgood : ∀ e ∈ rootCfgStack root, e ≠ [] ∧ '/' ∉ e := by
    intro e he
    exact ⟨cleanStack_elem_ne_nil _ _ e he,
      cleanStack_no_slash _ _ (splitSlash_no_slash root.data) e he⟩
  unfold goClean
  dsimp only
  rw [hrooted, hstack, List.reverse_append, List.reverse_reverse]
  cases hl : (rootCfgStack root).reverse ++ splitSlash x.data with
  | nil => exact absurd (List.append_eq_nil.mp hl).2 hXne
  | cons e rest =>
    have hegood : e ≠ [] ∧ '/' ∉ e := by
      have hemem : e ∈ (rootCfgStack root).reverse ++ splitSlash x.data := by
        rw [hl]
        exact List.mem_cons_self e rest
      rcases List.mem_append.mp hemem with h | h
      · exact hSgood e (List.mem_reverse.mp h)
      · exact ⟨(hx e h).1, splitSlash_no_slash x.data e h⟩
    cases hr : isRooted root with
    | true =>
      show trimPrefixStr (String.mk (['/'] ++ joinSegs (e :: rest))) "/" =
        String.mk (joinSegs (e :: rest))
      rw [show ['/'] ++ joinSegs (e :: rest) = '/' :: joinSegs (e :: rest) from rfl]
      exact trimPrefixStr_slash_cons _
    | false =>
      show trimPrefixStr (String.mk ([] ++ joinSegs (e :: rest))) "/" =
        String.mk (joinSegs (e :: rest))
      rw [List.nil_append]
      exact trimPrefixStr_slash_noop _ (joinSegs_head_ne_slash e rest hegood.1 hegood.2)

theorem keyFn_inj (s : StoreCfg) (x y : String)
    (hx : goodPath x) (hxe : x ≠ "") (hy : goodPath y) (hye : y ≠ "")
    (h : s.keyFn x = s.keyFn y) : x = y := by
  cases s with
  | mk root =>
    by_cases hroot : root = ""
    · subst hroot
      simpa [StoreCfg.keyFn] using h
    · rw [keyFn_eq root x hroot hx hxe, keyFn_eq root y hroot hy hye] at h
      have hj : joinSegs ((rootCfgStack root).reverse ++ splitSlash x.data) =
          joinSegs ((rootCfgStack root).reverse ++ splitSlash y.data) := by
        have := congrArg String.data h
        simpa using this
      have hSgood : ∀ e ∈ (rootCfgStack root).reverse, '/' ∉ e :=
        fun e he => cleanStack_no_slash _ _ (splitSlash_no_slash root.data) e
          (List.mem_reverse.mp he)
      have hsx : splitSlash (joinSegs ((rootCfgStack root).reverse ++ splitSlash x.data)) =
          (rootCfgStack root).reverse ++ splitSlash x.data := by
        refine splitSlash_joinSegs _ ?_ ?_
        · intro hcon
          exact splitSlash_ne_nil x.data (List.append_eq_nil.mp hcon).2
        · intro e he
          rcases List.mem_append.mp he with h1 | h1
          · exact hSgood e h1
          · exact splitSlash_no_slash x.data e h1
      have hsy : splitSlash (joinSegs ((rootCfgStack root).reverse ++ splitSlash y.data)) =
          (rootCfgStack root).reverse ++ splitSlash y.data := by
        refine splitSlash_joinSegs _ ?_ ?_
        · intro hcon
          exact splitSlash_ne_nil y.data (List.append_eq_nil.mp hcon).2
        · intro e he
          rcases List.mem_append.mp he with h1 | h1
          · exact hSgood e h1
          · exact splitSlash_no_slash y.data e h1
      have hxy : splitSlash x.data = splitSlash y.data := by
        have := congrArg splitSlash hj
        rw [hsx, hsy] at this
        exact List.append_cancel_left this
      have hd : x.data = y.data := by
        have := congrArg joinSegs hxy
        rwa [joinSegs_splitSlash, joinSegs_splitSlash] at this
      cases x
      cases y
      simp only at hd
      rw [hd]

theorem goodSeg_of_long (t : List Char) (h : 2 < t.length) : goodSeg t := by
  refine ⟨?_, ?_, ?_⟩ <;> intro he <;> rw [he] at h <;> simp at h

theorem rootStack_concat (k sufS : String) (hsl : '/' ∉ sufS.data)
    (hlen : 2 < sufS.data.length) :
    ∃ S t, splitSlash k.data = (splitSlash k.data).dropLast ++ [t] ∧
      S = cleanStack true (splitSlash k.data).dropLast [] ∧
      rootStack (k ++ sufS) = S.reverse ++ [t ++ sufS.data] ∧
      rootStack k = (cleanStack true [t] S).reverse := by
  obtain ⟨ss, t, h1, h2⟩ := splitSlash_append_free k.data sufS.data hsl
  have hdrop : (splitSlash k.data).dropLast = ss := by
    rw [h1]
    exact List.dropLast_concat ..
  refine ⟨cleanStack true ss [], t, ?_, ?_, ?_, ?_⟩
  · rw [hdrop]
    exact h1
  · rw [hdrop]
  · have hgood : goodSeg (t ++ sufS.data) := by
      refine goodSeg_of_long _ ?_
      rw [List.length_append]
      omega
    unfold rootStack
    rw [String.data_append, h2, cleanStack_append,
      cleanStack_all_good true [t ++ sufS.data] _ (by
        intro x hx
        rw [List.mem_singleton] at hx
        rw [hx]
        exact hgood)]
    simp
  · unfold rootStack
    rw [h1, cleanStack_append]

theorem rootStack_concat_len (k sufS : String) (hsl : '/' ∉ sufS.data)
    (hlen : 2 < sufS.data.length) (hk : rootStack k ≠ []) :
    (joinSegs (rootStack k)).length < (joinSegs (rootStack (k ++ sufS))).length := by
  obtain ⟨S, t, h1, hS, hB, hA⟩ := rootStack_concat k sufS hsl hlen
  have hBlen : (joinSegs (rootStack (k ++ sufS))).length + 1 =
      ((S.map List.length).sum + (t.length + sufS.data.length)) + (S.length + 1) := by
    rw [hB, joinSegs_length _ (by simp)]
    simp [List.map_reverse, List.sum_reverse]
  by_cases hgt : goodSeg t
  · obtain ⟨g1, g2, g3⟩ := hgt
    have hstep : cleanStack true [t] S = t :: S := by
      simp only [cleanStack]
      rw [if_neg (by simp [g1, g2]), if_neg g3]
    rw [hA, hstep] at hk ⊢
    have hAlen : (joinSegs ((t :: S).reverse)).length + 1 =
        ((S.map List.length).sum + t.length) + (S.length + 1) := by
      rw [joinSegs_length _ (by simp)]
      simp [List.map_reverse, List.sum_reverse]
    omega
  · by_cases hdd : t = ['.', '.']
    · subst hdd
      cases hScase : S with
      | nil =>
        rw [hA, hScase] at hk
        simp [cleanStack] at hk
      | cons u S' =>
        have hstep : cleanStack true [['.', '.']] (u :: S') = S' := by
          simp [cleanStack]
        rw [hA, hScase, hstep] at hk ⊢
        have hS'ne : S' ≠ [] := by
          intro h
          rw [h] at hk
          simp at hk
        have hAlen : (joinSegs S'.reverse).length + 1 =
            (S'.map List.length).sum + S'.length := by
          rw [joinSegs_length _ (by simpa using hS'ne)]
          simp [List.map_reverse, List.sum_reverse]
        rw [hScase] at hBlen
        simp at hBlen
        omega
    · have ht' : t = [] ∨ t = ['.'] := by
        by_cases h0 : t = []
        · exact Or.inl h0
        by_cases h2 : t = ['.']
        · exact Or.inr h2
        exact absurd ⟨h0, h2, hdd⟩ hgt
      have hstep : cleanStack true [t] S = S := by
        simp only [cleanStack]
        rw [if_pos ht']
      rw [hA, hstep] at hk ⊢
      have hAlen : (joinSegs S.reverse).length + 1 =
          (S.map List.length).sum + S.length := by
        rw [joinSegs_length _ (by simpa using hk)]
        simp [List.map_reverse, List.sum_reverse]
      omega

/-- Store.cleanKey in terms of the rooted clean stack. -/
theorem cleanKey_eq (s : StoreCfg) (raw : String) :
    s.cleanKey raw =
      if raw = "" then .error "empty key"
      else if rootStack raw = [] then .error "invalid key"
      else .ok (s.keyFn (String.mk (joinSegs (rootStack raw)))) := by
  unfold StoreCfg.cleanKey
  by_cases h0 : raw = ""
  · rw [if_pos h0, if_pos h0]
  · rw [if_neg h0, if_neg h0]
    rw [cleaned_eq raw]
    by_cases h : rootStack raw = []
    · rw [if_pos h, if_pos h, if_pos (Or.inl rfl)]
    · rw [if_neg h, if_neg h,
        if_neg (not_or.mpr ⟨mk_joinSegs_rootStack_ne_empty raw h, mk_joinSegs_rootStack_ne_dot raw h⟩)]

theorem cleanKey_ok_inv (s : StoreCfg) (raw a : String) (h : s.cleanKey raw = .ok a) :
    raw ≠ "" ∧ rootStack raw ≠ [] ∧
      a = s.keyFn (String.mk (joinSegs (rootStack raw))) := by
  rw [cleanKey_eq] at h
  by_cases h0 : raw = ""
  · rw [if_pos h0] at h
    exact absurd h (by simp)
  · rw [if_neg h0] at h
    by_cases h1 : rootStack raw = []
    · rw [if_pos h1] at h
      exact absurd h (by simp)
    · rw [if_neg h1] at h
      simp at h
      exact ⟨h0, h1, h.symm⟩

theorem cleanKey_concat_ne (s : StoreCfg) (k sufS a b : String)
    (hsl : '/' ∉ sufS.data) (hlen : 2 < sufS.data.length)
    (ha : s.cleanKey k = .ok a) (hb : s.cleanKey (k ++ sufS) = .ok b) : a ≠ b := by
  obtain ⟨hk0, hk1, hka⟩ := cleanKey_ok_inv s k a ha
  obtain ⟨hs0, hs1, hsb⟩ := cleanKey_ok_inv s (k ++ sufS) b hb
  intro he
  rw [hka, hsb] at he
  have hcl : String.mk (joinSegs (rootStack k)) =
      String.mk (joinSegs (rootStack (k ++ sufS))) :=
    keyFn_inj s _ _ (goodPath_mk_joinSegs_rootStack k hk1)
      (mk_joinSegs_rootStack_ne_empty k hk1)
      (goodPath_mk_joinSegs_rootStack _ hs1)
      (mk_joinSegs_rootStack_ne_empty _ hs1) he
  have hlencl : (joinSegs (rootStack k)).length =
      (joinSegs (rootStack (k ++ sufS))).length := by
    have := congrArg (fun s => s.data.length) hcl
    simpa using this
  exact absurd hlencl (Nat.ne_of_lt (rootStack_concat_len k sufS hsl hlen hk1))

theorem cleanKey_suffix_pair_ne (s : StoreCfg) (k s1 s2 b c : String)
    (hsl1 : '/' ∉ s1.data) (hlen1 : 2 < s1.data.length)
    (hsl2 : '/' ∉ s2.data) (hlen2 : 2 < s2.data.length)
    (hne : s1.data ≠ s2.data)
    (hb : s.cleanKey (k ++ s1) = .ok b) (hc : s.cleanKey (k ++ s2) = .ok c) : b ≠ c := by
  obtain ⟨h10, h11, h1b⟩ := cleanKey_ok_inv s (k ++ s1) b hb
  obtain ⟨h20, h21, h2c⟩ := cleanKey_ok_inv s (k ++ s2) c hc
  intro he
  rw [h1b, h2c] at he
  have hcl : String.mk (joinSegs (rootStack (k ++ s1))) =
      String.mk (joinSegs (rootStack (k ++ s2))) :=
    keyFn_inj s _ _ (goodPath_mk_joinSegs_rootStack _ h11)
      (mk_joinSegs_rootStack_ne_empty _ h11)
      (goodPath_mk_joinSegs_rootStack _ h21)
      (mk_joinSegs_rootStack_ne_empty _ h21) he
  have hj : joinSegs (rootStack (k ++ s1)) = joinSegs (rootStack (k ++ s2)) := by
    have := congrArg String.data hcl
    simpa using this
  have hstacks : rootStack (k ++ s1) = rootStack (k ++ s2) := by
    have := congrArg splitSlash hj
    rwa [splitSlash_joinSegs_rootStack _ h11, splitSlash_joinSegs_rootStack _ h21] at this
  obtain ⟨S1, t1, e1, eS1, eB1, _⟩ := rootStack_concat k s1 hsl1 hlen1
  obtain ⟨S2, t2, e2, eS2, eB2, _⟩ := rootStack_concat k s2 hsl2 hlen2
  have hSeq : S1 = S2 := by
    rw [eS1, eS2]
  have hteq : t1 = t2 := by
    have := e1.symm.trans e2
    have h3 := List.append_cancel_left this
    simpa using h3
  rw [eB1, eB2, hSeq, hteq] at hstacks
  have h4 := List.append_cancel_left hstacks
  simp at h4
  exact hne h4

/-! ## Further path lemmas for the claim theorems -/

theorem joinSegs_append (xs ys : List (List Char)) (hx : xs ≠ []) (hy : ys ≠ []) :
    joinSegs (xs ++ ys) = joinSegs xs ++ '/' :: joinSegs ys := by
  induction xs with
  | nil => exact absurd rfl hx
  | cons x t ih =>
    cases t with
    | nil =>
      cases ys with
      | nil => exact absurd rfl hy
      | cons y t2 => rfl
    | cons x2 t2 =>
      have h1 : joinSegs ((x :: x2 :: t2) ++ ys) = x ++ '/' :: joinSegs ((x2 :: t2) ++ ys) := rfl
      have h2 : joinSegs (x :: x2 :: t2) = x ++ '/' :: joinSegs (x2 :: t2) := rfl
      rw [h1, h2, ih (by simp)]
      simp

theorem goodPath_isRooted_false (root : String) (h : goodPath root) (hne : root ≠ "") :
    isRooted root = false := by
  cases hd : root.data with
  | nil => exact absurd ((string_empty_iff root).mpr hd) hne
  | cons c t =>
    by_cases hc : c = '/'
    · subst hc
      have : ([] : List Char) ∈ splitSlash root.data := by
        rw [hd, splitSlash_cons_slash]
        exact List.mem_cons_self _ _
      exact absurd rfl (h [] this).1
    · unfold isRooted
      rw [hd]
      simp [hc]

theorem rootCfgStack_of_goodPath (root : String) (h : goodPath root) (hne : root ≠ "") :
    (rootCfgStack root).reverse = splitSlash root.data := by
  unfold rootCfgStack
  rw [goodPath_isRooted_false root h hne, cleanStack_all_good false _ [] h]
  simp

theorem isPrefixOf_append_cons (a : List Char) (c : Char) (r : List Char) :
    (a ++ [c]).isPrefixOf (a ++ c :: r) = true := by
  rw [List.isPrefixOf_iff_prefix]
  exact ⟨r, by simp⟩

/-- The key produced under a clean, non-empty root is the root, a slash,
then the cleaned relative key. -/
theorem keyFn_under_good_root (root x : String) (hroot : goodPath root) (hne : root ≠ "")
    (hx : goodPath x) (hxe : x ≠ "") :
    (StoreCfg.mk root).keyFn x = String.mk (root.data ++ '/' :: x.data) := by
  rw [keyFn_eq root x hne hx hxe, rootCfgStack_of_goodPath root hroot hne,
    joinSegs_append _ _ (splitSlash_ne_nil root.data) (splitSlash_ne_nil x.data),
    joinSegs_splitSlash, joinSegs_splitSlash]

/-- C3 helper: an ok cleanKey under a clean root carries the root as a
strict prefix. -/
theorem cleanKey_ok_under_root (root raw k : String) (hroot : goodPath root)
    (hne : root ≠ "") (h : (StoreCfg.mk root).cleanKey raw = .ok k) :
    hasPrefixStr k (root ++ "/") = true := by
  obtain ⟨h0, h1, h2⟩ := cleanKey_ok_inv _ raw k h
  rw [h2, keyFn_under_good_root root _ hroot hne
    (goodPath_mk_joinSegs_rootStack raw h1) (mk_joinSegs_rootStack_ne_empty raw h1)]
  unfold hasPrefixStr
  rw [String.data_append]
  exact isPrefixOf_append_cons root.data '/' _

/-- C9 helper: cleaning is stable on a cleaned relative key. -/
theorem rootStack_idem (raw : String) (h : rootStack raw ≠ []) :
    rootStack (String.mk (joinSegs (rootStack raw))) = rootStack raw := by
  rw [show rootStack (String.mk (joinSegs (rootStack raw))) =
      (cleanStack true (splitSlash (joinSegs (rootStack raw))) []).reverse from rfl]
  rw [splitSlash_joinSegs_rootStack raw h, cleanStack_all_good true _ [] (rootStack_good raw)]
  simp

/-! ## Store lemmas for the upload round trip -/

theorem storePut_ok_inv (s : StoreCfg) (σ : KV) (raw : String) (v : ByteSeq) (σ₁ : KV)
    (h : storePut s σ raw v = .ok σ₁) :
    ∃ a, s.cleanKey raw = .ok a ∧ σ₁ = kvPut σ a v := by
  unfold storePut at h
  cases hc : s.cleanKey raw with
  | error e =>
    rw [hc] at h
    exact absurd h (by simp)
  | ok a =>
    rw [hc] at h
    simp at h
    exact ⟨a, rfl, h.symm⟩

theorem kvGet_head (σ : KV) (k : String) (v : ByteSeq) : kvGet ((k, v) :: σ) k = some v := by
  simp [kvGet, List.find?]

theorem kvGet_skip (σ : KV) (k k' : String) (v : ByteSeq) (h : k' ≠ k) :
    kvGet ((k', v) :: σ) k = kvGet σ k := by
  simp [kvGet, List.find?, h]

/-! ## Claim theorems -/

/-- C3: key normalization fails with an invalid-key error on empty or
degenerate input (empty string or dot), neutralizes traversal segments by
cleaning (../x resolves to x under the root), and for every raw path the
resulting storage key stays under the configured root prefix. -/
theorem claim_C3_cleanKey_traversal :
    (∀ root, (StoreCfg.mk root).cleanKey "" = .error "empty key") ∧
    (∀ root, (StoreCfg.mk root).cleanKey "." = .error "invalid key") ∧
    (StoreCfg.mk "r").cleanKey "../x" = .ok "r/x" ∧
    (∀ root raw k, goodPath root → root ≠ "" →
      (StoreCfg.mk root).cleanKey raw = .ok k →
      hasPrefixStr k (root ++ "/") = true) := by
  refine ⟨?_, ?_, ?_, ?_⟩
  · intro root
    rfl
  · intro root
    rfl
  · decide
  · exact fun root raw k h1 h2 h3 => cleanKey_ok_under_root root raw k h1 h2 h3

/-- Witness for C3 at a concrete root and traversal path. -/
theorem claim_C3_witness :
    goodPath "r" ∧ ("r" : String) ≠ "" ∧
    (StoreCfg.mk "r").cleanKey "../../a/./b" = .ok "r/a/b" ∧
    hasPrefixStr "r/a/b" ("r" ++ "/") = true :=
  ⟨by decide, by decide, by decide,
    claim_C3_cleanKey_traversal.2.2.2 "r" "../../a/./b" "r/a/b" (by decide) (by decide)
      (by decide)⟩

/-- C9 counterexample: with a configured root prefix, normalizing the
already-normalized key joins the root a second time, so normalization is
not idempotent on full keys. -/
theorem claim_C9_counterexample :
    (StoreCfg.mk "r").cleanKey "a" = .ok "r/a" ∧
    (StoreCfg.mk "r").cleanKey "r/a" = .ok "r/r/a" ∧
    ("r/r/a" : String) ≠ "r/a" := by
  refine ⟨by decide, by decide, by decide⟩

/-- C9 (amended): when no root prefix is configured, key normalization is
idempotent: normalizing an already-normalized key returns it unchanged. -/
theorem claim_C9_idempotent_no_root (raw k : String)
    (h : (StoreCfg.mk "").cleanKey raw = .ok k) :
    (StoreCfg.mk "").cleanKey k = .ok k := by
  obtain ⟨h0, h1, h2⟩ := cleanKey_ok_inv _ raw k h
  have hkey : ∀ x, (StoreCfg.mk "").keyFn x = x := by
    intro x
    unfold StoreCfg.keyFn
    rw [if_pos rfl]
  rw [hkey] at h2
  subst h2
  rw [cleanKey_eq, if_neg (mk_joinSegs_rootStack_ne_empty raw h1),
    if_neg (by rw [rootStack_idem raw h1]; exact h1), rootStack_idem raw h1, hkey]

/-- Witness for C9 (amended): a path with a duplicate slash normalizes to a
fixed point. -/
theorem claim_C9_witness : (StoreCfg.mk "").cleanKey "a/b" = .ok "a/b" :=
  claim_C9_idempotent_no_root "a//b" "a/b" (by decide)

/-- C4: a successful upload of content C at a key, which stores the object
and then its two checksum sidecars, is followed by Get returning exactly C,
with the sidecar objects holding the lowercase hex digests of C. -/
theorem claim_C4_put_get_roundtrip (H : HashImpl) (s : StoreCfg) (σ : KV)
    (key : String) (body : ByteSeq) (σ' : KV)
    (h : handlePut H s σ key body = .ok σ') :
    storeGet s σ' key = .ok body ∧
    storeGet s σ' (key ++ ".sha1") = .ok (strBytes (hexEncode (H.sha1 body))) ∧
    storeGet s σ' (key ++ ".md5") = .ok (strBytes (hexEncode (H.md5 body))) := by
  unfold handlePut at h
  dsimp only at h
  cases h1 : storePut s σ key body with
  | error e =>
    rw [h1] at h
    exact absurd h (by simp)
  | ok σ₁ =>
    rw [h1] at h
    dsimp only at h
    cases h2 : storePut s σ₁ (key ++ ".sha1") (strBytes (hexEncode (H.sha1 body))) with
    | error e =>
      rw [h2] at h
      exact absurd h (by simp)
    | ok σ₂ =>
      rw [h2] at h
      dsimp only at h
      cases h3 : storePut s σ₂ (key ++ ".md5") (strBytes (hexEncode (H.md5 body))) with
      | error e =>
        rw [h3] at h
        exact absurd h (by simp)
      | ok σ₃ =>
        rw [h3] at h
        simp at h
        subst h
        obtain ⟨a, ha, hσ₁⟩ := storePut_ok_inv _ _ _ _ _ h1
        obtain ⟨b, hbk, hσ₂⟩ := storePut_ok_inv _ _ _ _ _ h2
        obtain ⟨c, hck, hσ₃⟩ := storePut_ok_inv _ _ _ _ _ h3
        have hab : a ≠ b :=
          cleanKey_concat_ne s key ".sha1" a b (by decide) (by decide) ha hbk
        have hac : a ≠ c :=
          cleanKey_concat_ne s key ".md5" a c (by decide) (by decide) ha hck
        have hbc : b ≠ c :=
          cleanKey_suffix_pair_ne s key ".sha1" ".md5" b c (by decide) (by decide)
            (by decide) (by decide) (by decide) hbk hck
        subst hσ₁
        subst hσ₂
        subst hσ₃
        refine ⟨?_, ?_, ?_⟩
        · unfold storeGet
          rw [ha]
          dsimp only
          unfold kvPut
          rw [kvGet_skip _ _ _ _ (Ne.symm hac), kvGet_skip _ _ _ _ (Ne.symm hab),
            kvGet_head]
        · unfold storeGet
          rw [hbk]
          dsimp only
          unfold kvPut
          rw [kvGet_skip _ _ _ _ (Ne.symm hbc), kvGet_head]
        · unfold storeGet
          rw [hck]
          dsimp only
          unfold kvPut
          rw [kvGet_head]

/-- Witness for C4: a concrete upload and the three reads it enables. -/
theorem claim_C4_witness :
    storeGet (StoreCfg.mk "") [("a/b.md5", strBytes (hexEncode [1])),
        ("a/b.sha1", strBytes (hexEncode [0])), ("a/b", [7, 8])] "a/b" = .ok [7, 8] ∧
    storeGet (StoreCfg.mk "") [("a/b.md5", strBytes (hexEncode [1])),
        ("a/b.sha1", strBytes (hexEncode [0])), ("a/b", [7, 8])] ("a/b" ++ ".sha1") =
      .ok (strBytes (hexEncode [0])) ∧
    storeGet (StoreCfg.mk "") [("a/b.md5", strBytes (hexEncode [1])),
        ("a/b.sha1", strBytes (hexEncode [0])), ("a/b", [7, 8])] ("a/b" ++ ".md5") =
      .ok (strBytes (hexEncode [1])) :=
  claim_C4_put_get_roundtrip ⟨fun _ => [0], fun _ => [1]⟩ (StoreCfg.mk "") [] "a/b" [7, 8]
    _ (by decide)

/-! ## Store.List pagination -/

theorem listLoop_take (p basePath : String) (lim : Nat) (pages : List S3Page)
    (acc : List GoEntry) (h : acc.length < lim) :
    listLoop p basePath lim pages acc =
      (acc ++ pages.flatMap (pageEntries p basePath)).take lim := by
  induction pages generalizing acc with
  | nil =>
    simp only [listLoop, List.flatMap_nil, List.append_nil]
    rw [List.take_of_length_le (Nat.le_of_lt h)]
  | cons pg rest ih =>
    simp only [listLoop, List.flatMap_cons]
    by_cases hl : lim ≤ (acc ++ pageEntries p basePath pg).length
    · rw [if_pos hl, ← List.append_assoc,
        List.take_append_of_le_length hl]
    · rw [if_neg hl, ih _ (Nat.lt_of_not_le hl), List.append_assoc]

theorem fileEntryOf_some_inv (p basePath : String) (o : S3Obj) (e : GoEntry)
    (h : fileEntryOf p basePath o = some e) :
    o.key ≠ p ∧ o.key ≠ trimSuffixStr p "/" := by
  unfold fileEntryOf at h
  by_cases hc : o.key = p ∨ o.key = trimSuffixStr p "/"
  · rw [if_pos hc] at h
    exact absurd h (by simp)
  · push_neg at hc
    exact hc

/-- C2: with a positive caller limit, Store.List returns at most limit
entries, is exactly the limit-truncation of the concatenation of all
backend pages (so continuation tokens are followed until the limit or
exhaustion, invisibly to the caller), and every returned file entry comes
from a backend key different from the queried prefix itself. -/
theorem claim_C2_list_pagination (root raw : String) (pages : List S3Page) (limit : Int)
    (hpos : 0 < limit) :
    (storeList root pages raw limit).length ≤ limit.toNat ∧
    storeList root pages raw limit =
      (pages.flatMap (pageEntries (listPfxOf root raw)
        (trimSuffixStr (listPfxOf root raw) "/"))).take limit.toNat ∧
    (∀ e ∈ storeList root pages raw limit,
      (∃ pg ∈ pages, ∃ cp ∈ pg.cps,
        dirEntryOf (listPfxOf root raw) (trimSuffixStr (listPfxOf root raw) "/") cp = some e) ∨
      (∃ pg ∈ pages, ∃ o ∈ pg.objs,
        o.key ≠ listPfxOf root raw ∧ o.key ≠ trimSuffixStr (listPfxOf root raw) "/" ∧
        fileEntryOf (listPfxOf root raw) (trimSuffixStr (listPfxOf root raw) "/") o = some e)) := by
  have hlim : (if limit ≤ 0 then (100 : Int) else limit).toNat = limit.toNat := by
    rw [if_neg (by omega)]
  have heq : storeList root pages raw limit =
      (pages.flatMap (pageEntries (listPfxOf root raw)
        (trimSuffixStr (listPfxOf root raw) "/"))).take limit.toNat := by
    unfold storeList
    dsimp only
    rw [hlim, listLoop_take _ _ _ _ _ (by simp; omega)]
    rfl
  refine ⟨?_, heq, ?_⟩
  · rw [heq]
    rw [List.length_take]
    exact Nat.min_le_left _ _
  · intro e he
    rw [heq] at he
    have he2 := List.take_subset _ _ he
    rw [List.mem_flatMap] at he2
    obtain ⟨pg, hpg, hem⟩ := he2
    unfold pageEntries at hem
    rcases List.mem_append.mp hem with h | h
    · rw [List.mem_filterMap] at h
      obtain ⟨cp, hcp, hde⟩ := h
      exact Or.inl ⟨pg, hpg, cp, hcp, hde⟩
    · rw [List.mem_filterMap] at h
      obtain ⟨o, ho, hfe⟩ := h
      obtain ⟨h1, h2⟩ := fileEntryOf_some_inv _ _ o e hfe
      exact Or.inr ⟨pg, hpg, o, ho, h1, h2, hfe⟩

/-- Witness for C2: a page with one directory and one file, limit one. -/
theorem claim_C2_witness :
    0 < (1 : Int) ∧
    (storeList "" [⟨["a/"], [⟨"b", 1⟩]⟩] "" 1).length ≤ (1 : Int).toNat :=
  ⟨by decide, (claim_C2_list_pagination "" "" [⟨["a/"], [⟨"b", 1⟩]⟩] 1 (by decide)).1⟩

/-! ## Trailing-slash invariants (C8) -/

/-- The effective Store.List page budget. -/
def effLimit (limit : Int) : Nat :=
  (if limit ≤ 0 then (100 : Int) else limit).toNat

theorem effLimit_pos (limit : Int) : 0 < effLimit limit := by
  unfold effLimit
  split <;> omega

theorem storeList_eq_take (root raw : String) (pages : List S3Page) (limit : Int) :
    storeList root pages raw limit =
      (pages.flatMap (pageEntries (listPfxOf root raw)
        (trimSuffixStr (listPfxOf root raw) "/"))).take (effLimit limit) := by
  unfold storeList
  dsimp only
  rw [listLoop_take _ _ _ _ _ (by
    have h := effLimit_pos limit
    unfold effLimit at h
    simpa using h)]
  rfl

theorem hasSuffixStr_append_self (x suf : String) : hasSuffixStr (x ++ suf) suf = true := by
  unfold hasSuffixStr
  rw [String.data_append, List.isSuffixOf_iff_suffix]
  exact ⟨x.data, rfl⟩

theorem dirEntryOf_some_inv (p basePath cp : String) (e : GoEntry)
    (h : dirEntryOf p basePath cp = some e) :
    ∃ k, k ≠ "" ∧
      e = { name := k ++ "/", path := goJoin basePath k ++ "/", typ := "dir", size := 0 } := by
  unfold dirEntryOf at h
  by_cases hk : trimSuffixStr (trimPrefixStr cp p) "/" = ""
  · rw [if_pos hk] at h
    exact absurd h (by simp)
  · rw [if_neg hk] at h
    simp at h
    exact ⟨trimSuffixStr (trimPrefixStr cp p) "/", hk, h.symm⟩

theorem fileEntryOf_typ (p basePath : String) (o : S3Obj) (e : GoEntry)
    (h : fileEntryOf p basePath o = some e) : e.typ = "file" := by
  unfold fileEntryOf at h
  by_cases h1 : o.key = p ∨ o.key = trimSuffixStr p "/"
  · rw [if_pos h1] at h
    exact absurd h (by simp)
  · rw [if_neg h1] at h
    try dsimp only at h
    by_cases h2 : strContains (trimPrefixStr o.key p) '/' = true
    · rw [if_pos h2] at h
      exact absurd h (by simp)
    · rw [if_neg h2] at h
      by_cases h3 : trimPrefixStr o.key p = ""
      · rw [if_pos h3] at h
        exact absurd h (by simp)
      · rw [if_neg h3] at h
        simp at h
        rw [← h]

theorem hrefEntry_some_inv (href : String) (e : GoEntry) (h : hrefEntry href = some e) :
    ∃ (norm : String) (isDir : Bool), norm ≠ "" ∧ strContains norm '/' = false ∧
      e = { name := if isDir then norm ++ "/" else norm,
            path := goJoin (if isDir then norm ++ "/" else norm) "",
            typ := if isDir then "dir" else "file", size := 0 } := by
  unfold hrefEntry at h
  by_cases h1 : href = "../" ∨ href = ""
  · rw [if_pos h1] at h
    exact absurd h (by simp)
  · rw [if_neg h1] at h
    try dsimp only at h
    by_cases h2 : trimSpaceStr href = ""
    · rw [if_pos h2] at h
      exact absurd h (by simp)
    · rw [if_neg h2] at h
      try dsimp only at h
      by_cases h3 : trimSuffixStr (trimPrefixStr (trimSpaceStr href) "/") "/" = ""
      · rw [if_pos h3] at h
        exact absurd h (by simp)
      · rw [if_neg h3] at h
        by_cases h4 : strContains (trimSuffixStr (trimPrefixStr (trimSpaceStr href) "/") "/") '/' = true
        · rw [if_pos h4] at h
          exact absurd h (by simp)
        · rw [if_neg h4] at h
          try dsimp only at h
          refine ⟨trimSuffixStr (trimPrefixStr (trimSpaceStr href) "/") "/",
            hasSuffixStr (trimPrefixStr (trimSpaceStr href) "/") "/", h3, by simpa using h4, ?_⟩
          simp at h
          exact h.symm

theorem lpeLoop_mem (limit : Int) (hrefs : List String) (acc : List GoEntry) :
    ∀ e ∈ lpeLoop limit hrefs acc, e ∈ acc ∨ ∃ href ∈ hrefs, hrefEntry href = some e := by
  induction hrefs generalizing acc with
  | nil => exact fun e he => Or.inl he
  | cons h0 rest ih =>
    intro e he
    simp only [lpeLoop] at he
    cases hh : hrefEntry h0 with
    | none =>
      rw [hh] at he
      rcases ih acc e he with h | ⟨hr, hmem, hsome⟩
      · exact Or.inl h
      · exact Or.inr ⟨hr, List.mem_cons_of_mem h0 hmem, hsome⟩
    | some e0 =>
      rw [hh] at he
      dsimp only at he
      by_cases hc : 0 < limit ∧ limit ≤ ((acc ++ [e0]).length : Int)
      · rw [if_pos hc] at he
        rcases List.mem_append.mp he with h | h
        · exact Or.inl h
        · rw [List.mem_singleton] at h
          exact Or.inr ⟨h0, List.mem_cons_self h0 rest, h ▸ hh⟩
      · rw [if_neg hc] at he
        rcases ih (acc ++ [e0]) e he with h | ⟨hr, hmem, hsome⟩
        · rcases List.mem_append.mp h with h | h
          · exact Or.inl h
          · rw [List.mem_singleton] at h
            exact Or.inr ⟨h0, List.mem_cons_self h0 rest, h ▸ hh⟩
        · exact Or.inr ⟨hr, List.mem_cons_of_mem h0 hmem, hsome⟩

/-- The trailing-slash well-formedness of one entry, for the grouped types. -/
def slashOK (e : GoEntry) : Prop :=
  (e.typ = "dir" ∨ e.typ = "group" ∨ e.typ = "proxy") →
    hasSuffixStr e.name "/" = true ∧ hasSuffixStr e.path "/" = true

theorem lpAdd_pres (P : GoEntry → Prop) (st : LPState) (e : GoEntry)
    (h : ∀ x ∈ st.keys, P x) (he : P (lpNorm e)) : ∀ x ∈ (lpAdd st e).keys, P x := by
  unfold lpAdd
  by_cases h1 : hasPrefixStr (trimPrefixStr e.path "packages/") cfgNs = true ∨
      hasPrefixStr e.name cfgNs = true
  · rw [if_pos (by simpa using h1)]
    exact h
  · rw [if_neg (by simpa using h1)]
    dsimp only
    by_cases h2 : st.seen.contains (lpNorm e).name = true
    · rw [if_pos h2]
      exact h
    · rw [if_neg h2]
      intro x hx
      dsimp only at hx
      rcases List.mem_append.mp hx with hx | hx
      · exact h x hx
      · rw [List.mem_singleton] at hx
        subst hx
        exact he

theorem lpLocalLoop_pres (P : GoEntry → Prop) (l : List GoEntry) (st : LPState)
    (h : ∀ x ∈ st.keys, P x)
    (hl : ∀ e ∈ l, P (lpNorm { e with path := goJoin "packages" e.path })) :
    ∀ x ∈ (lpLocalLoop l st).1.keys, P x := by
  induction l generalizing st with
  | nil => exact h
  | cons e rest ih =>
    simp only [lpLocalLoop]
    have h' := lpAdd_pres P st _ h (hl e (List.mem_cons_self e rest))
    split
    · exact h'
    · exact ih _ h' (fun x hx => hl x (List.mem_cons_of_mem e hx))

theorem lpProxyEntriesLoop_pres (P : GoEntry → Prop) (prName : String)
    (l : List GoEntry) (st : LPState) (h : ∀ x ∈ st.keys, P x)
    (hl : ∀ e ∈ l, P (lpNorm { e with path := goJoin3 "packages" prName e.name })) :
    ∀ x ∈ (lpProxyEntriesLoop prName l st).1.keys, P x := by
  induction l generalizing st with
  | nil => exact h
  | cons e rest ih =>
    simp only [lpProxyEntriesLoop]
    have h' := lpAdd_pres P st _ h (hl e (List.mem_cons_self e rest))
    split
    · exact h'
    · exact ih _ h' (fun x hx => hl x (List.mem_cons_of_mem e hx))

theorem lpProxyLoop_pres (P : GoEntry → Prop) (proxies : List GoProxy)
    (upl : String → UpListResp) (clean : String) (l : List GoProxy) (st : LPState)
    (h : ∀ x ∈ st.keys, P x)
    (hl : ∀ pr ∈ l, ∀ lim : Int,
      ∀ e ∈ (listPath proxies upl (goJoin pr.name clean) lim).entries,
        P (lpNorm { e with path := goJoin3 "packages" pr.name e.name })) :
    ∀ x ∈ (lpProxyLoop proxies upl clean l st).1.keys, P x := by
  induction l generalizing st with
  | nil => exact h
  | cons pr rest ih =>
    simp only [lpProxyLoop]
    split
    · exact ih st h (fun q hq => hl q (List.mem_cons_of_mem pr hq))
    · cases hp : lpProxyEntriesLoop pr.name
        (listPath proxies upl (goJoin pr.name clean) st.remaining).entries st with
      | mk st' early =>
        have h' : ∀ x ∈ st'.keys, P x := by
          have h2 := lpProxyEntriesLoop_pres P pr.name
            (listPath proxies upl (goJoin pr.name clean) st.remaining).entries st h
            (hl pr (List.mem_cons_self pr rest) st.remaining)
          rw [hp] at h2
          exact h2
        cases early with
        | true => exact h'
        | false => exact ih st' h' (fun q hq => hl q (List.mem_cons_of_mem pr hq))

theorem lpLocalLoop_pres' (P : GoEntry → Prop) (l : List GoEntry) (st st' : LPState)
    (b : Bool) (heq : lpLocalLoop l st = (st', b)) (h : ∀ x ∈ st.keys, P x)
    (hl : ∀ e ∈ l, P (lpNorm { e with path := goJoin "packages" e.path })) :
    ∀ x ∈ st'.keys, P x := by
  have h2 := lpLocalLoop_pres P l st h hl
  rw [heq] at h2
  exact h2

theorem listPackages_pres (P : GoEntry → Prop) (proxies : List GoProxy)
    (upl : String → UpListResp) (localList : String → Int → List GoEntry)
    (pfxQ : String) (limit : Int)
    (hlocal : ∀ q l, ∀ e ∈ localList q l, P (lpNorm { e with path := goJoin "packages" e.path }))
    (hproxy : ∀ pr ∈ proxies, ∀ key lim,
      ∀ e ∈ (listPath proxies upl key lim).entries,
        P (lpNorm { e with path := goJoin3 "packages" pr.name e.name })) :
    ∀ x ∈ listPackages proxies upl localList pfxQ limit, P x := by
  intro x hx
  unfold listPackages at hx
  dsimp only at hx
  split at hx
  next st heq =>
    exact lpLocalLoop_pres' P _ _ _ _ heq (by intro y hy; simp at hy)
      (fun e he => hlocal _ _ e he) x hx
  next st heq =>
    refine lpProxyLoop_pres P proxies upl _ proxies st ?_ ?_ x hx
    · exact lpLocalLoop_pres' P _ _ _ _ heq (by intro y hy; simp at hy)
        (fun e he => hlocal _ _ e he)
    · intro pr hpr lim e he
      exact hproxy pr hpr _ lim e he

theorem slashOK_lpNorm (e : GoEntry) : slashOK (lpNorm e) := by
  unfold lpNorm
  by_cases h2 : e.typ = "dir" ∨ e.typ = "proxy" ∨ e.typ = "group"
  · rw [if_pos h2]
    intro _
    constructor
    · dsimp only
      by_cases hn : hasSuffixStr e.name "/" = true
      · rw [if_pos hn]
        exact hn
      · rw [if_neg hn]
        exact hasSuffixStr_append_self e.name "/"
    · dsimp only
      by_cases hp : hasSuffixStr e.path "/" = true
      · rw [if_pos hp]
        exact hp
      · rw [if_neg hp]
        exact hasSuffixStr_append_self e.path "/"
  · rw [if_neg h2]
    intro hcon
    exact absurd (by tauto) h2

theorem listPackages_slashOK (proxies : List GoProxy) (upl : String → UpListResp)
    (localList : String → Int → List GoEntry) (pfxQ : String) (limit : Int) :
    ∀ x ∈ listPackages proxies upl localList pfxQ limit, slashOK x :=
  listPackages_pres slashOK proxies upl localList pfxQ limit
    (fun _ _ _ _ => slashOK_lpNorm _) (fun _ _ _ _ _ _ => slashOK_lpNorm _)

/-- C8 counterexample: a ListPath dir entry keeps the trailing slash on its
name but its path, built as path.Join(name, ""), loses it. -/
theorem claim_C8_counterexample :
    listPathEntries ["sub/"] 100 =
      [{ name := "sub/", path := "sub", typ := "dir", size := 0 }] ∧
    hasSuffixStr "sub" "/" = false :=
  ⟨by decide, by decide⟩

/-- C8 (amended): dir entries from Store.List carry a trailing slash on both
name and path, and so do dir, group and proxy entries from listPackages;
ListPath dir entries carry the slash on the name only, their path field
drops it (and the Catalog merge inherits those paths unchanged). -/
theorem claim_C8_trailing_slash :
    (∀ root raw pages limit, ∀ e ∈ storeList root pages raw limit,
      e.typ = "dir" → hasSuffixStr e.name "/" = true ∧ hasSuffixStr e.path "/" = true) ∧
    (∀ proxies upl localList pfxQ limit,
      ∀ e ∈ listPackages proxies upl localList pfxQ limit,
        (e.typ = "dir" ∨ e.typ = "group" ∨ e.typ = "proxy") →
          hasSuffixStr e.name "/" = true ∧ hasSuffixStr e.path "/" = true) ∧
    (∀ hrefs limit, ∀ e ∈ listPathEntries hrefs limit,
      e.typ = "dir" → hasSuffixStr e.name "/" = true) := by
  refine ⟨?_, ?_, ?_⟩
  · intro root raw pages limit e he htyp
    rw [storeList_eq_take] at he
    have h2 := List.take_subset _ _ he
    rw [List.mem_flatMap] at h2
    obtain ⟨pg, hpg, hm⟩ := h2
    unfold pageEntries at hm
    rcases List.mem_append.mp hm with hm | hm
    · rw [List.mem_filterMap] at hm
      obtain ⟨cp, hcp, hde⟩ := hm
      obtain ⟨k, hk, hei⟩ := dirEntryOf_some_inv _ _ cp e hde
      subst hei
      exact ⟨hasSuffixStr_append_self _ _, hasSuffixStr_append_self _ _⟩
    · rw [List.mem_filterMap] at hm
      obtain ⟨o, ho, hfe⟩ := hm
      have hft := fileEntryOf_typ _ _ o e hfe
      rw [htyp] at hft
      exact absurd hft (by decide)
  · intro proxies upl localList pfxQ limit e he htyp
    exact listPackages_slashOK proxies upl localList pfxQ limit e he htyp
  · intro hrefs limit e he htyp
    unfold listPathEntries at he
    rcases lpeLoop_mem limit hrefs [] e he with h | ⟨hr, _, hsome⟩
    · simp at h
    · obtain ⟨norm, isDir, hn, _, hei⟩ := hrefEntry_some_inv hr e hsome
      subst hei
      cases isDir with
      | false => simp at htyp
      | true =>
        simp only [if_pos rfl]
        exact hasSuffixStr_append_self norm "/"

/-- Witness for C8 (amended) on a concrete Store.List page. -/
theorem claim_C8_witness :
    ({ name := "d/", path := "d/", typ := "dir", size := 0 } : GoEntry) ∈
        storeList "" [⟨["d/"], []⟩] "" 5 ∧
    hasSuffixStr "d/" "/" = true :=
  ⟨by decide,
    (claim_C8_trailing_slash.1 "" "" [⟨["d/"], []⟩] 5
      { name := "d/", path := "d/", typ := "dir", size := 0 } (by decide) rfl).1⟩

/-! ## Reserved-namespace exclusion (C5, C10) -/

theorem goodPath_ne_empty (x : String) (h : goodPath x) : x ≠ "" := by
  intro he
  subst he
  exact (h [] (by simp [splitSlash])).1 rfl

theorem goJoin_good (a x : String) (ha : goodPath a) (hane : a ≠ "")
    (hx : goodPath x) (hxe : x ≠ "") :
    goJoin a x = String.mk (a.data ++ '/' :: x.data) := by
  unfold goJoin
  rw [if_neg (fun hcon => hane hcon.1), if_neg hane, if_neg hxe]
  have hne1 : a ++ "/" ≠ "" := by
    intro hcon
    have h2 := congrArg String.data hcon
    rw [String.data_append] at h2
    simp at h2
  have hrooted : isRooted (a ++ "/" ++ x) = false := by
    rw [isRooted_append (a ++ "/") x hne1, isRooted_append a "/" hane]
    exact goodPath_isRooted_false a ha hane
  have hsplit : splitSlash ((a ++ "/" ++ x).data) =
      splitSlash a.data ++ splitSlash x.data := by
    rw [data_mid_slash, splitSlash_append]
  have hall : ∀ s ∈ splitSlash a.data ++ splitSlash x.data, goodSeg s := by
    intro s hs
    rcases List.mem_append.mp hs with h | h
    · exact ha s h
    · exact hx s h
  unfold goClean
  dsimp only
  rw [hrooted, hsplit, cleanStack_all_good false _ [] hall]
  simp only [List.append_nil, List.reverse_reverse]
  have hj : joinSegs (splitSlash a.data ++ splitSlash x.data) = a.data ++ '/' :: x.data := by
    rw [joinSegs_append _ _ (splitSlash_ne_nil a.data) (splitSlash_ne_nil x.data),
      joinSegs_splitSlash, joinSegs_splitSlash]
  cases hl : splitSlash a.data ++ splitSlash x.data with
  | nil => exact absurd (List.append_eq_nil.mp hl).1 (splitSlash_ne_nil a.data)
  | cons e rest =>
    rw [hl] at hj
    simp [hj]

theorem cfgNs_data : cfgNs.data = '_' :: "_proxycfg__/".data := by decide

theorem hasPrefixStr_cfg_false_of_head (x : String) (c : Char)
    (h : x.data.head? = some c) (hc : c ≠ '_') : hasPrefixStr x cfgNs = false := by
  cases hb : hasPrefixStr x cfgNs with
  | false => rfl
  | true =>
    unfold hasPrefixStr at hb
    rw [List.isPrefixOf_iff_prefix] at hb
    obtain ⟨t, ht⟩ := hb
    rw [cfgNs_data] at ht
    rw [← ht] at h
    simp at h
    exact absurd h.symm hc

theorem head_append_of_ne (x y : String) (c : Char) (h : x.data.head? = some c) :
    (x ++ y).data.head? = some c := by
  rw [String.data_append]
  cases hd : x.data with
  | nil =>
    rw [hd] at h
    simp at h
  | cons c0 t =>
    rw [hd] at h
    simp at h
    simp [h]

theorem isRooted_eq_head (s : String) (c : Char) (t : List Char) (h : s.data = c :: t) :
    isRooted s = decide (c = '/') := by
  unfold isRooted
  rw [h]

theorem joinSegs_cons_head? (c : Char) (t : List Char) (rest : List (List Char)) :
    (joinSegs ((c :: t) :: rest)).head? = some c := by
  obtain ⟨r, hr⟩ := joinSegs_cons_head (c :: t) rest
  rw [hr]
  rfl

theorem goClean_data_head (s : String) (c : Char) (t : List Char)
    (stack : List (List Char)) (hr : isRooted s = false)
    (hst : (cleanStack false (splitSlash s.data) []).reverse = (c :: t) :: stack) :
    (goClean s).data.head? = some c := by
  unfold goClean
  dsimp only
  rw [hr, hst]
  simpa using joinSegs_cons_head? c t stack

/-- The first character of path.Join("packages", n, nm) is the p of
packages, for any valid proxy-name segment n and any single-level child
name nm (possibly with a trailing slash, possibly a dot segment). -/
theorem goJoin3_pkg_head (n nm norm : String)
    (hn : goodSeg n.data) (hnsl : strContains n '/' = false)
    (hnorm : norm ≠ "") (hnsl2 : strContains norm '/' = false)
    (hnm : nm = norm ∨ nm = norm ++ "/") :
    (goJoin3 "packages" n nm).data.head? = some 'p' := by
  have hne : n ≠ "" := fun hcon => hn.1 ((string_empty_iff n).mp hcon)
  have hnormd : norm.data ≠ [] := fun hcon => hnorm ((string_empty_iff norm).mpr hcon)
  have hnme : nm ≠ "" := by
    rcases hnm with h | h <;> subst h
    · exact hnorm
    · intro hcon
      have h2 := congrArg String.data hcon
      rw [String.data_append] at h2
      simp at h2
  unfold goJoin3
  rw [if_neg (by decide), if_neg hne, if_neg hnme]
  have hdata : ("packages" ++ "/" ++ n ++ "/" ++ nm).data =
      "packages".data ++ '/' :: (n.data ++ '/' :: nm.data) := by
    repeat rw [String.data_append]
    simp
  have hrooted : isRooted ("packages" ++ "/" ++ n ++ "/" ++ nm) = false := by
    rw [isRooted_eq_head _ 'p' _ (by rw [hdata]; rfl)]
    decide
  have hsplit : splitSlash (("packages" ++ "/" ++ n ++ "/" ++ nm).data) =
      ["packages".data] ++ ([n.data] ++ splitSlash nm.data) := by
    rw [hdata, splitSlash_append, splitSlash_single _ (by decide),
      splitSlash_append, splitSlash_single _ (by simpa [strContains] using hnsl)]
  have hS2 : cleanStack false ["packages".data, n.data] [] = [n.data, "packages".data] := by
    rw [cleanStack_all_good false _ [] (by
      intro s hs
      rcases List.mem_cons.mp hs with h | h
      · rw [h]; decide
      · rw [List.mem_singleton] at h
        rw [h]; exact hn)]
    simp
  have hnorm_stack : cleanStack false (splitSlash nm.data) [n.data, "packages".data] =
      cleanStack false [norm.data] [n.data, "packages".data] := by
    rcases hnm with h | h <;> subst h
    · rw [splitSlash_single _ (by simpa [strContains] using hnsl2)]
    · have hd : (norm ++ "/").data = norm.data ++ '/' :: [] := by
        rw [String.data_append]
      rw [hd, splitSlash_append, splitSlash_single _ (by simpa [strContains] using hnsl2),
        cleanStack_append]
      rfl
  have hred : cleanStack false (splitSlash (("packages" ++ "/" ++ n ++ "/" ++ nm).data)) [] =
      cleanStack false [norm.data] [n.data, "packages".data] := by
    rw [hsplit, cleanStack_append, cleanStack_append]
    have h1 : cleanStack false ["packages".data] [] = ["packages".data] := by decide
    rw [h1]
    have h2 : cleanStack false [n.data] ["packages".data] = [n.data, "packages".data] := by
      simp only [cleanStack]
      rw [if_neg (by simp [hn.1, hn.2.1]), if_neg hn.2.2]
    rw [h2, hnorm_stack]
  have hstack : ∃ rest, (cleanStack false
      (splitSlash (("packages" ++ "/" ++ n ++ "/" ++ nm).data)) []).reverse =
      ("packages".data) :: rest := by
    by_cases hg : goodSeg norm.data
    · refine ⟨[n.data, norm.data], ?_⟩
      rw [hred, cleanStack_all_good false [norm.data] _ (by
        intro s hs
        rw [List.mem_singleton] at hs
        rw [hs]
        exact hg)]
      simp
    · by_cases hd1 : norm.data = ['.']
      · refine ⟨[n.data], ?_⟩
        rw [hred, hd1]
        simp [cleanStack]
      · have hd2 : norm.data = ['.', '.'] := by
          unfold goodSeg at hg
          push_neg at hg
          exact hg hnormd hd1
        refine ⟨[], ?_⟩
        rw [hred, hd2]
        simp [cleanStack, hn.2.2]
  obtain ⟨rest, hst⟩ := hstack
  exact goClean_data_head _ 'p' _ rest hrooted (by rw [hst])

theorem listPath_mem (proxies : List GoProxy) (upl : String → UpListResp)
    (key : String) (lim : Int) (e : GoEntry)
    (h : e ∈ (listPath proxies upl key lim).entries) :
    ∃ href, hrefEntry href = some e := by
  unfold listPath at h
  dsimp only at h
  cases hsp : splitFirstSlash (trimPrefixStr key "/").data with
  | none =>
    rw [hsp] at h
    dsimp only at h
    split at h
    · simp at h
    · split at h
      · simp at h
      · split at h
        · simp at h
        · simp at h
        · next hrefs _ =>
          obtain hm := lpeLoop_mem lim hrefs [] e h
          rcases hm with hm | ⟨href, _, hsome⟩
          · simp at hm
          · exact ⟨href, hsome⟩
  | some pq =>
    rw [hsp] at h
    dsimp only at h
    split at h
    · simp at h
    · split at h
      · simp at h
      · split at h
        · simp at h
        · simp at h
        · next hrefs _ =>
          obtain hm := lpeLoop_mem lim hrefs [] e h
          rcases hm with hm | ⟨href, _, hsome⟩
          · simp at hm
          · exact ⟨href, hsome⟩

theorem lpNorm_path (e : GoEntry) :
    (lpNorm e).path = e.path ∨ (lpNorm e).path = e.path ++ "/" := by
  unfold lpNorm
  by_cases h2 : e.typ = "dir" ∨ e.typ = "proxy" ∨ e.typ = "group"
  · rw [if_pos h2]
    dsimp only
    by_cases hp : hasSuffixStr e.path "/" = true
    · rw [if_pos hp]
      exact Or.inl rfl
    · rw [if_neg hp]
      exact Or.inr rfl
  · rw [if_neg h2]
    exact Or.inl rfl

theorem pathOK_of_head_p (x : GoEntry) (hh : x.path.data.head? = some 'p') :
    hasPrefixStr x.path cfgNs = false :=
  hasPrefixStr_cfg_false_of_head _ 'p' hh (by decide)

theorem lpNorm_pathOK_of_head (e : GoEntry) (hh : e.path.data.head? = some 'p') :
    hasPrefixStr (lpNorm e).path cfgNs = false := by
  rcases lpNorm_path e with h | h <;> rw [h]
  · exact hasPrefixStr_cfg_false_of_head _ 'p' hh (by decide)
  · exact hasPrefixStr_cfg_false_of_head _ 'p' (head_append_of_ne _ _ _ hh) (by decide)

theorem local_entry_pathOK (e : GoEntry) (hp : goodPath e.path) :
    hasPrefixStr (lpNorm { e with path := goJoin "packages" e.path }).path cfgNs = false := by
  refine lpNorm_pathOK_of_head _ ?_
  show (goJoin "packages" e.path).data.head? = some 'p'
  rw [goJoin_good "packages" e.path (by decide) (by decide) hp (goodPath_ne_empty _ hp)]
  rfl

theorem proxy_entry_pathOK (prName : String) (e : GoEntry)
    (hn : goodSeg prName.data) (hnsl : strContains prName '/' = false)
    (hinv : ∃ href, hrefEntry href = some e) :
    hasPrefixStr (lpNorm { e with path := goJoin3 "packages" prName e.name }).path
      cfgNs = false := by
  obtain ⟨href, hsome⟩ := hinv
  obtain ⟨norm, isDir, hnorm, hnsl2, hei⟩ := hrefEntry_some_inv href e hsome
  refine lpNorm_pathOK_of_head _ ?_
  show (goJoin3 "packages" prName e.name).data.head? = some 'p'
  refine goJoin3_pkg_head prName e.name norm hn hnsl hnorm hnsl2 ?_
  rw [hei]
  cases isDir with
  | false => exact Or.inl rfl
  | true => exact Or.inr rfl

/-- At the root path, handleCatalog is the filtered local listing followed
by the synthetic group and proxy entries. -/
theorem handleCatalog_root_eq (proxies : List GoProxy) (upl : String → UpListResp)
    (localList : String → Int → List GoEntry) (limit : Int) (pfxQ : String)
    (hq : pfxQ = "" ∨ pfxQ = "/") :
    handleCatalog proxies upl localList pfxQ limit =
      (localList pfxQ limit).filter (fun e => ¬hasPrefixStr e.path cfgNs) ++
        [pkgGroupEntry] ++ proxies.map proxyEntryOf := by
  rcases hq with hq | hq <;> subst hq <;> rfl

/-- When the path names a proxy whose listing is handled without error,
handleCatalog merges the proxy entries ahead of the deduplicated local
entries and applies only the reserved-namespace filter to the result. -/
theorem handleCatalog_merge_eq (proxies : List GoProxy) (upl : String → UpListResp)
    (localList : String → Int → List GoEntry) (pfxQ : String) (limit : Int)
    (prE : List GoEntry)
    (h1 : hasPrefixStr (trimPrefixStr pfxQ "/") "packages" = false)
    (h2 : maybeListProxy proxies upl pfxQ limit = ⟨prE, true, false⟩)
    (h3 : ¬(pfxQ = "" ∨ pfxQ = "/")) :
    handleCatalog proxies upl localList pfxQ limit =
      (prE ++ (localList pfxQ limit).filter (fun e =>
        ¬hasPrefixStr e.path cfgNs ∧ ¬(prE.map (fun x => x.name)).contains e.name)).filter
        (fun e => ¬hasPrefixStr e.path cfgNs) := by
  unfold handleCatalog
  rw [if_neg (show ¬(hasPrefixStr (trimPrefixStr pfxQ "/") "packages" = true) by
    simp [h1])]
  dsimp only
  rw [h2]
  dsimp only
  rw [if_pos (show ¬(false = true) ∧ (true = true) from ⟨by simp, rfl⟩)]
  rw [if_neg h3]

theorem string_data_inj (a b : String) (h : a.data = b.data) : a = b := by
  cases a
  cases b
  simp only at h
  rw [h]

theorem strContains_false_not_mem (n : String) (c : Char)
    (h : strContains n c = false) : c ∉ n.data := by
  unfold strContains at h
  intro hmem
  rw [List.contains_eq_any_beq] at h
  simp at h
  exact h c hmem rfl

theorem name_slash_not_cfg (n : String) (hsl : strContains n '/' = false)
    (hne : n ≠ "__proxycfg__") : hasPrefixStr (n ++ "/") cfgNs = false := by
  cases hb : hasPrefixStr (n ++ "/") cfgNs with
  | false => rfl
  | true =>
    exfalso
    unfold hasPrefixStr at hb
    rw [List.isPrefixOf_iff_prefix] at hb
    obtain ⟨t, ht⟩ := hb
    rw [String.data_append] at ht
    have hcd : cfgNs.data = "__proxycfg__".data ++ ['/'] := by decide
    rw [hcd] at ht
    have hsd : ("/" : String).data = ['/'] := rfl
    rw [hsd] at ht
    cases t with
    | nil =>
      rw [List.append_nil] at ht
      have h2 := List.append_inj' ht rfl
      exact hne (string_data_inj n "__proxycfg__" h2.1.symm)
    | cons t0 t' =>
      have hlen : 13 ≤ n.data.length := by
        have h3 := congrArg List.length ht
        simp only [List.length_append, List.length_cons] at h3
        have h12 : ("__proxycfg__".data).length = 12 := by decide
        omega
      have ht2 : ("__proxycfg__".data ++ ['/']) ++ (t0 :: t') = n.data ++ ['/'] := by
        rw [← ht]
      have h4 := congrArg (List.take 13) ht2
      rw [List.take_append_of_le_length (by simp),
        List.take_append_of_le_length hlen] at h4
      rw [List.take_of_length_le (by simp)] at h4
      have hmem : '/' ∈ n.data :=
        List.take_subset 13 n.data (h4 ▸ (by simp : '/' ∈ "__proxycfg__".data ++ ['/']))
      exact strContains_false_not_mem n '/' hsl hmem

/-- C5 counterexample: a proxy registered under the literal name of the
reserved namespace yields a root catalog entry whose path begins with the
reserved prefix (the synthetic proxy entries are appended after the
reserved-namespace filter). -/
theorem claim_C5_counterexample :
    ({ name := "__proxycfg__/", path := "__proxycfg__/", typ := "proxy", size := 0 } : GoEntry) ∈
      handleCatalog [⟨"__proxycfg__", "u"⟩] (fun _ => UpListResp.notFound)
        (fun _ _ => []) "" 100 ∧
    hasPrefixStr "__proxycfg__/" cfgNs = true :=
  ⟨by decide, by decide⟩

/-- C5 (amended): the root catalog always contains the synthetic packages
group entry and one proxy entry per registered proxy; and provided every
registered proxy name is an ordinary path segment other than the reserved
name itself and local listing paths are clean relative paths, no catalog
result at any path contains an entry whose path begins with the reserved
namespace. -/
theorem claim_C5_catalog_root_reserved :
    (∀ proxies upl localList pfxQ limit, (pfxQ = "" ∨ pfxQ = "/") →
      pkgGroupEntry ∈ handleCatalog proxies upl localList pfxQ limit ∧
      ∀ pr ∈ proxies, proxyEntryOf pr ∈ handleCatalog proxies upl localList pfxQ limit) ∧
    (∀ proxies upl localList pfxQ limit,
      (∀ pr ∈ proxies, goodSeg pr.name.data ∧ strContains pr.name '/' = false ∧
        pr.name ≠ "__proxycfg__") →
      (∀ q l, ∀ e ∈ localList q l, goodPath e.path) →
      ∀ e ∈ handleCatalog proxies upl localList pfxQ limit,
        hasPrefixStr e.path cfgNs = false) := by
  constructor
  · intro proxies upl localList pfxQ limit hq
    rw [handleCatalog_root_eq proxies upl localList limit pfxQ hq]
    constructor
    · exact List.mem_append.mpr (Or.inl (List.mem_append.mpr
        (Or.inr (List.mem_singleton.mpr rfl))))
    · intro pr hpr
      exact List.mem_append.mpr (Or.inr (List.mem_map.mpr ⟨pr, hpr, rfl⟩))
  · intro proxies upl localList pfxQ limit Hn Hl e he
    unfold handleCatalog at he
    by_cases hpk : hasPrefixStr (trimPrefixStr pfxQ "/") "packages" = true
    · rw [if_pos hpk] at he
      refine listPackages_pres (fun x => hasPrefixStr x.path cfgNs = false)
        proxies upl localList pfxQ limit ?_ ?_ e he
      · intro q l e' he'
        exact local_entry_pathOK e' (Hl q l e' he')
      · intro pr hpr key lim e' he'
        exact proxy_entry_pathOK pr.name e' (Hn pr hpr).1 (Hn pr hpr).2.1
          (listPath_mem proxies upl key lim e' he')
    · rw [if_neg hpk] at he
      dsimp only at he
      by_cases hroot : pfxQ = "" ∨ pfxQ = "/"
      · rw [if_pos hroot] at he
        rcases List.mem_append.mp he with he | he
        · rcases List.mem_append.mp he with he | he
          · have h2 := List.mem_filter.mp he
            simpa using h2.2
          · rw [List.mem_singleton] at he
            subst he
            decide
        · rw [List.mem_map] at he
          obtain ⟨pr, hpr, hee⟩ := he
          subst hee
          exact name_slash_not_cfg pr.name (Hn pr hpr).2.1 (Hn pr hpr).2.2
      · rw [if_neg hroot] at he
        have h2 := List.mem_filter.mp he
        simpa using h2.2

/-- Witness for C5 (amended) with one ordinarily named proxy. -/
theorem claim_C5_witness :
    pkgGroupEntry ∈ handleCatalog [⟨"central", "u"⟩] (fun _ => UpListResp.notFound)
        (fun _ _ => []) "" 10 ∧
    hasPrefixStr pkgGroupEntry.path cfgNs = false := by
  have hmem := (claim_C5_catalog_root_reserved.1 [⟨"central", "u"⟩]
    (fun _ => UpListResp.notFound) (fun _ _ => []) "" 10 (Or.inl rfl)).1
  refine ⟨hmem, ?_⟩
  exact claim_C5_catalog_root_reserved.2 [⟨"central", "u"⟩]
    (fun _ => UpListResp.notFound) (fun _ _ => []) "" 10
    (by intro pr hpr; rw [List.mem_singleton] at hpr; subst hpr; exact ⟨by decide, by decide, by decide⟩)
    (by intro q l e he; simp at he)
    pkgGroupEntry hmem

/-- C10: the catalog can return more than the caller limit: at root the
synthetic entries are appended after the (already limit-bounded) local
listing, and on a proxy-named path the merged result is never re-limited. -/
theorem claim_C10_catalog_exceeds_limit (proxies : List GoProxy)
    (upl : String → UpListResp) (localList : String → Int → List GoEntry) (limit : Int) :
    (handleCatalog proxies upl localList "" limit =
      (localList "" limit).filter (fun e => ¬hasPrefixStr e.path cfgNs) ++
        [pkgGroupEntry] ++ proxies.map proxyEntryOf) ∧
    (((localList "" limit).filter (fun e => ¬hasPrefixStr e.path cfgNs)).length =
        limit.toNat →
      limit.toNat < (handleCatalog proxies upl localList "" limit).length) ∧
    (∀ pfxQ prE, hasPrefixStr (trimPrefixStr pfxQ "/") "packages" = false →
      maybeListProxy proxies upl pfxQ limit = ⟨prE, true, false⟩ →
      ¬(pfxQ = "" ∨ pfxQ = "/") →
      handleCatalog proxies upl localList pfxQ limit =
        (prE ++ (localList pfxQ limit).filter (fun e =>
          ¬hasPrefixStr e.path cfgNs ∧ ¬(prE.map (fun x => x.name)).contains e.name)).filter
          (fun e => ¬hasPrefixStr e.path cfgNs) ∧
      ((∀ e ∈ prE, hasPrefixStr e.path cfgNs = false) →
        (handleCatalog proxies upl localList pfxQ limit).length =
          prE.length + ((localList pfxQ limit).filter (fun e =>
            ¬hasPrefixStr e.path cfgNs ∧
              ¬(prE.map (fun x => x.name)).contains e.name)).length)) := by
  refine ⟨handleCatalog_root_eq proxies upl localList limit "" (Or.inl rfl), ?_, ?_⟩
  · intro hlen
    rw [handleCatalog_root_eq proxies upl localList limit "" (Or.inl rfl),
      List.length_append, List.length_append, hlen]
    simp only [List.length_singleton, List.length_map]
    omega
  · intro pfxQ prE h1 h2 h3
    have heq := handleCatalog_merge_eq proxies upl localList pfxQ limit prE h1 h2 h3
    refine ⟨heq, ?_⟩
    intro hall
    rw [heq, List.filter_append]
    have hpre : prE.filter (fun e => ¬hasPrefixStr e.path cfgNs) = prE := by
      rw [List.filter_eq_self]
      intro e he
      simp [hall e he]
    have hrest : ((localList pfxQ limit).filter (fun e =>
        ¬hasPrefixStr e.path cfgNs ∧
          ¬(prE.map (fun x => x.name)).contains e.name)).filter
        (fun e => ¬hasPrefixStr e.path cfgNs) =
        (localList pfxQ limit).filter (fun e =>
          ¬hasPrefixStr e.path cfgNs ∧ ¬(prE.map (fun x => x.name)).contains e.name) := by
      rw [List.filter_eq_self]
      intro e he
      have h4 := List.mem_filter.mp he
      have h5 := h4.2
      simp at h5
      simp [h5.1]
    rw [hpre, hrest, List.length_append]

/-- Witness for C10 on a concrete merged proxy listing. -/
theorem claim_C10_witness :
    handleCatalog [⟨"p", "http://u"⟩]
        (fun t => if t = "http://u/" then UpListResp.ok ["x/"] else UpListResp.notFound)
        (fun _ _ => []) "p" 1 =
      (([⟨"x/", "p/x", "dir", 0⟩] : List GoEntry) ++
        (([] : List GoEntry)).filter (fun e =>
          ¬hasPrefixStr e.path cfgNs ∧
            ¬(([⟨"x/", "p/x", "dir", 0⟩] : List GoEntry).map (fun x => x.name)).contains
              e.name)).filter (fun e => ¬hasPrefixStr e.path cfgNs) :=
  ((claim_C10_catalog_exceeds_limit [⟨"p", "http://u"⟩]
    (fun t => if t = "http://u/" then UpListResp.ok ["x/"] else UpListResp.notFound)
    (fun _ _ => []) 1).2.2 "p" [⟨"x/", "p/x", "dir", 0⟩]
    (by decide) (by decide) (by decide)).1

/-! ## Claim C7: the checksum scanner's single-slot discipline -/

/-- One scanner step preserves the slot invariant: the tokens in the guard
channel count exactly the active executions, and the channel holds at most
one token. -/
theorem scanStep_inv (st : ScanState) (e : ScanEv)
    (h : st.tokens = st.active ∧ st.active ≤ 1) :
    (scanStep st e).tokens = (scanStep st e).active ∧ (scanStep st e).active ≤ 1 := by
  obtain ⟨h1, h2⟩ := h
  cases e with
  | tick =>
    unfold scanStep
    dsimp only
    by_cases hlt : st.tokens < 1
    · rw [if_pos hlt]
      dsimp only
      exact ⟨by omega, by omega⟩
    · rw [if_neg hlt]
      exact ⟨h1, h2⟩
  | finish =>
    unfold scanStep
    dsimp only
    by_cases hact : 0 < st.active
    · rw [if_pos hact]
      dsimp only
      exact ⟨by omega, by omega⟩
    · rw [if_neg hact]
      exact ⟨h1, h2⟩

/-- The slot invariant holds along any run from an invariant state. -/
theorem scanFold_inv (evs : List ScanEv) (st : ScanState)
    (h : st.tokens = st.active ∧ st.active ≤ 1) :
    (evs.foldl scanStep st).tokens = (evs.foldl scanStep st).active ∧
      (evs.foldl scanStep st).active ≤ 1 := by
  induction evs generalizing st with
  | nil => exact h
  | cons e rest ih => exact ih (scanStep st e) (scanStep_inv st e h)

/-- The slot invariant holds after any event sequence. -/
theorem scanRun_inv (evs : List ScanEv) :
    (scanRun evs).tokens = (scanRun evs).active ∧ (scanRun evs).active ≤ 1 :=
  scanFold_inv evs scanInit ⟨rfl, by decide⟩

/-- Appending one event steps the scanner state once. -/
theorem scanRun_snoc (evs : List ScanEv) (e : ScanEv) :
    scanRun (evs ++ [e]) = scanStep (scanRun evs) e := by
  unfold scanRun
  rw [List.foldl_append]
  rfl

/-- C7: at most one scan execution is ever active; a tick arriving while no
run is active launches CleanupBadChecksums then GenerateChecksums as one
unit of work; a tick arriving while a run is active only counts a skip
(warned, not queued) and changes nothing else. -/
theorem claim_C7_scanner_single_slot :
    (∀ evs, (scanRun evs).active ≤ 1) ∧
    (∀ evs, (scanRun evs).active = 0 →
      scanRun (evs ++ [ScanEv.tick]) =
        { tokens := 1, active := 1,
          launches := (scanRun evs).launches ++ [[ScanJob.cleanup, ScanJob.generate]],
          skips := (scanRun evs).skips }) ∧
    (∀ evs, (scanRun evs).active ≠ 0 →
      scanRun (evs ++ [ScanEv.tick]) =
        { scanRun evs with skips := (scanRun evs).skips + 1 }) := by
  refine ⟨fun evs => (scanRun_inv evs).2, fun evs h0 => ?_, fun evs h0 => ?_⟩
  · have hinv := scanRun_inv evs
    have ht : (scanRun evs).tokens = 0 := by omega
    rw [scanRun_snoc]
    unfold scanStep
    dsimp only
    rw [if_pos (show (scanRun evs).tokens < 1 by omega)]
    rw [ht, h0]
  · have hinv := scanRun_inv evs
    rw [scanRun_snoc]
    unfold scanStep
    dsimp only
    rw [if_neg (show ¬(scanRun evs).tokens < 1 by omega)]

/-- Witness for C7: the first tick launches the pair of jobs, a second tick
while the run is still active is skipped. -/
theorem claim_C7_witness :
    scanRun [ScanEv.tick] = ⟨1, 1, [[ScanJob.cleanup, ScanJob.generate]], 0⟩ ∧
    scanRun [ScanEv.tick, ScanEv.tick] =
      ⟨1, 1, [[ScanJob.cleanup, ScanJob.generate]], 1⟩ := by
  constructor
  · exact (claim_C7_scanner_single_slot.2.1 [] rfl).trans (by decide)
  · exact (claim_C7_scanner_single_slot.2.2 [ScanEv.tick] (by decide)).trans (by decide)

/-! ## Claim C6: sidecar checksum writes in FetchAndCache -/

/-- C6: every successful FetchAndCache resolved a proxy, got a non-404
status below 300, and wrote the body under the key; when the artifact path
ends in .sha1/.md5 (case-insensitively) that cache write is the only write,
otherwise the .sha1 and .md5 sidecars holding the two digests of the
upstream body are written immediately after it. -/
theorem claim_C6_sidecar_writes (H : HashImpl) (proxies : List GoProxy)
    (up : String → UpResp) (σ : KV) (key : String) (σ' : KV)
    (h : fetchAndCache H proxies up σ key = .ok (true, σ')) :
    ∃ name apath pr code ct body,
      splitProxyKey key = some (name, apath) ∧
      findByName proxies name = some pr ∧
      up (urlOf pr apath) = UpResp.resp code ct body ∧
      code ≠ 404 ∧ code < 300 ∧
      σ' = (if isChecksumPath apath then kvPut σ key body
            else
              kvPut (kvPut (kvPut σ key body) (key ++ ".sha1")
                  (strBytes (hexEncode (H.sha1 body))))
                (key ++ ".md5") (strBytes (hexEncode (H.md5 body)))) := by
  unfold fetchAndCache at h
  cases hspl : splitProxyKey key with
  | none =>
    rw [hspl] at h
    simp at h
  | some nx =>
    obtain ⟨name, apath⟩ := nx
    rw [hspl] at h
    dsimp only at h
    cases hfind : findByName proxies name with
    | none =>
      rw [hfind] at h
      simp at h
    | some pr =>
      rw [hfind] at h
      dsimp only at h
      cases hup : up (urlOf pr apath) with
      | netErr =>
        rw [hup] at h
        simp at h
      | resp code ct body =>
        rw [hup] at h
        dsimp only at h
        by_cases h404 : code = 404
        · rw [if_pos h404] at h
          simp at h
        · rw [if_neg h404] at h
          by_cases h300 : 300 ≤ code
          · rw [if_pos h300] at h
            simp at h
          · rw [if_neg h300] at h
            refine ⟨name, apath, pr, code, ct, body, rfl, hfind, hup, h404,
              by omega, ?_⟩
            by_cases hck : isChecksumPath apath
            · rw [if_pos hck] at h ⊢
              simp at h
              exact h.symm
            · rw [if_neg hck] at h ⊢
              simp at h
              exact h.symm

/-- Witness for C6 at a concrete successful fetch of a non-checksum
artifact. -/
theorem claim_C6_witness :
    ∃ name apath pr code ct body,
      splitProxyKey "p/a.jar" = some (name, apath) ∧
      findByName [({ name := "p", url := "http://u" } : GoProxy)] name = some pr ∧
      (fun _ => UpResp.resp 200 "" [7]) (urlOf pr apath) = UpResp.resp code ct body ∧
      code ≠ 404 ∧ code < 300 ∧
      kvPut (kvPut (kvPut ([] : KV) "p/a.jar" [7]) ("p/a.jar" ++ ".sha1")
          (strBytes (hexEncode [1]))) ("p/a.jar" ++ ".md5") (strBytes (hexEncode [2])) =
        (if isChecksumPath apath then kvPut ([] : KV) "p/a.jar" body
         else
           kvPut (kvPut (kvPut ([] : KV) "p/a.jar" body) ("p/a.jar" ++ ".sha1")
               (strBytes (hexEncode (HashImpl.sha1 ⟨fun _ => [1], fun _ => [2]⟩ body))))
             ("p/a.jar" ++ ".md5")
             (strBytes (hexEncode (HashImpl.md5 ⟨fun _ => [1], fun _ => [2]⟩ body)))) :=
  claim_C6_sidecar_writes ⟨fun _ => [1], fun _ => [2]⟩
    [{ name := "p", url := "http://u" }] (fun _ => UpResp.resp 200 "" [7])
    [] "p/a.jar" _ (by decide)

/-! ## Claim C1: the FetchFromAny fallback order -/

/-- A soft miss leaves the cache untouched. -/
theorem fetchAndCache_soft (H : HashImpl) (proxies : List GoProxy)
    (up : String → UpResp) (σ : KV) (key : String) (σ' : KV)
    (h : fetchAndCache H proxies up σ key = .ok (false, σ')) : σ' = σ := by
  unfold fetchAndCache at h
  cases hspl : splitProxyKey key with
  | none =>
    rw [hspl] at h
    simp at h
    exact h.symm
  | some nx =>
    obtain ⟨name, apath⟩ := nx
    rw [hspl] at h
    dsimp only at h
    cases hfind : findByName proxies name with
    | none =>
      rw [hfind] at h
      simp at h
      exact h.symm
    | some pr =>
      rw [hfind] at h
      dsimp only at h
      cases hup : up (urlOf pr apath) with
      | netErr =>
        rw [hup] at h
        simp at h
      | resp code ct body =>
        rw [hup] at h
        dsimp only at h
        by_cases h404 : code = 404
        · rw [if_pos h404] at h
          simp at h
          exact h.symm
        · rw [if_neg h404] at h
          by_cases h300 : 300 ≤ code
          · rw [if_pos h300] at h
            simp at h
          · rw [if_neg h300] at h
            by_cases hck : isChecksumPath apath
            · rw [if_pos hck] at h
              simp at h
            · rw [if_neg hck] at h
              simp at h

/-- attemptOf unfolded. -/
theorem attemptOf_eq (H : HashImpl) (proxies : List GoProxy) (up : String → UpResp)
    (σ : KV) (apath : String) (pr : GoProxy) :
    attemptOf H proxies up σ apath pr =
      classifyFA (fetchAndCache H proxies up σ (goJoin pr.name apath)) := rfl

/-- The one-step unfolding of the FetchFromAny loop on a non-empty list. -/
theorem ffaLoop_cons (H : HashImpl) (proxies : List GoProxy) (up : String → UpResp)
    (apath : String) (pr : GoProxy) (rest : List GoProxy) (last : Nat) (σ : KV) :
    ffaLoop H proxies up apath (pr :: rest) last σ =
      (match fetchAndCache H proxies up σ (goJoin pr.name apath) with
       | .error (.status c) =>
         if c = 404 ∨ c = 401 ∨ c = 403 then ffaLoop H proxies up apath rest c σ
         else .error (.status c)
       | .error .net => .error .net
       | .ok (found, σ') =>
         if found then .ok (goJoin pr.name apath, true, σ')
         else ffaLoop H proxies up apath rest last σ') := rfl

/-- When every proxy of the list lets the loop continue, the loop result is
determined by the last remembered status: a typed status error when one was
remembered, a plain not-found with the cache untouched otherwise. -/
theorem ffaLoop_exhaust (H : HashImpl) (proxies : List GoProxy) (up : String → UpResp)
    (apath : String) :
    ∀ (l : List GoProxy) (last : Nat) (σ : KV),
      (∀ pr ∈ l, contAttempt (attemptOf H proxies up σ apath pr) = true) →
      ffaLoop H proxies up apath l last σ =
        (if lastStatus H proxies up σ apath l last ≠ 0 then
          Except.error (FErr.status (lastStatus H proxies up σ apath l last))
         else Except.ok ("", false, σ)) := by
  intro l
  induction l with
  | nil =>
    intro last σ _
    rfl
  | cons pr rest ih =>
    intro last σ hall
    have hpr := hall pr (List.mem_cons_self pr rest)
    have hrest : ∀ q ∈ rest, contAttempt (attemptOf H proxies up σ apath q) = true :=
      fun q hq => hall q (List.mem_cons_of_mem pr hq)
    cases hr : fetchAndCache H proxies up σ (goJoin pr.name apath) with
    | ok v =>
      obtain ⟨found, σ'⟩ := v
      cases found with
      | true =>
        exfalso
        have ha : attemptOf H proxies up σ apath pr = Attempt.hit := by
          rw [attemptOf_eq, hr]
          rfl
        rw [ha] at hpr
        simp [contAttempt] at hpr
      | false =>
        have hσ : σ' = σ := fetchAndCache_soft H proxies up σ _ σ' hr
        have ha : attemptOf H proxies up σ apath pr = Attempt.soft := by
          rw [attemptOf_eq, hr]
          rfl
        have hstep : ffaLoop H proxies up apath (pr :: rest) last σ =
            ffaLoop H proxies up apath rest last σ := by
          rw [ffaLoop_cons, hr]
          dsimp only
          rw [hσ]
          try simp
        have hls : lastStatus H proxies up σ apath (pr :: rest) last =
            lastStatus H proxies up σ apath rest last := by
          unfold lastStatus
          rw [List.foldl_cons, ha]
        rw [hstep, hls]
        exact ih last σ hrest
    | error e =>
      cases e with
      | net =>
        exfalso
        have ha : attemptOf H proxies up σ apath pr = Attempt.abort FErr.net := by
          rw [attemptOf_eq, hr]
          rfl
        rw [ha] at hpr
        simp [contAttempt] at hpr
      | status c =>
        have ha : attemptOf H proxies up σ apath pr =
            (if c = 404 ∨ c = 401 ∨ c = 403 then Attempt.remember c
             else Attempt.abort (FErr.status c)) := by
          rw [attemptOf_eq, hr]
          rfl
        by_cases hc : c = 404 ∨ c = 401 ∨ c = 403
        · rw [if_pos hc] at ha
          have hstep : ffaLoop H proxies up apath (pr :: rest) last σ =
              ffaLoop H proxies up apath rest c σ := by
            rw [ffaLoop_cons, hr]
            dsimp only
            rw [if_pos hc]
          have hls : lastStatus H proxies up σ apath (pr :: rest) last =
              lastStatus H proxies up σ apath rest c := by
            unfold lastStatus
            rw [List.foldl_cons, ha]
          rw [hstep, hls]
          exact ih c σ hrest
        · exfalso
          rw [if_neg hc] at ha
          rw [ha] at hpr
          simp [contAttempt] at hpr

/-- When every proxy before p lets the loop continue and the attempt at p
is a hit, the loop returns p with its cache key and the found flag set. -/
theorem ffaLoop_hit (H : HashImpl) (proxies : List GoProxy) (up : String → UpResp)
    (apath : String) :
    ∀ (pre : List GoProxy) (p : GoProxy) (post : List GoProxy) (last : Nat) (σ : KV),
      (∀ q ∈ pre, contAttempt (attemptOf H proxies up σ apath q) = true) →
      attemptOf H proxies up σ apath p = Attempt.hit →
      ∃ σ', ffaLoop H proxies up apath (pre ++ p :: post) last σ =
        Except.ok (goJoin p.name apath, true, σ') := by
  intro pre
  induction pre with
  | nil =>
    intro p post last σ _ hp
    rw [attemptOf_eq] at hp
    cases hr : fetchAndCache H proxies up σ (goJoin p.name apath) with
    | ok v =>
      obtain ⟨found, σ''⟩ := v
      cases found with
      | true =>
        refine ⟨σ'', ?_⟩
        show ffaLoop H proxies up apath (p :: post) last σ = _
        rw [ffaLoop_cons, hr]
        simp
      | false =>
        exfalso
        rw [hr] at hp
        simp [classifyFA] at hp
    | error e =>
      exfalso
      rw [hr] at hp
      cases e with
      | net => simp [classifyFA] at hp
      | status c =>
        simp only [classifyFA] at hp
        by_cases hc : c = 404 ∨ c = 401 ∨ c = 403
        · rw [if_pos hc] at hp
          simp at hp
        · rw [if_neg hc] at hp
          simp at hp
  | cons q pre2 ih =>
    intro p post last σ hall hp
    have hq := hall q (List.mem_cons_self q pre2)
    have hpre2 : ∀ r ∈ pre2, contAttempt (attemptOf H proxies up σ apath r) = true :=
      fun r hr => hall r (List.mem_cons_of_mem q hr)
    cases hr : fetchAndCache H proxies up σ (goJoin q.name apath) with
    | ok v =>
      obtain ⟨found, σ'⟩ := v
      cases found with
      | true =>
        exfalso
        have ha : attemptOf H proxies up σ apath q = Attempt.hit := by
          rw [attemptOf_eq, hr]
          rfl
        rw [ha] at hq
        simp [contAttempt] at hq
      | false =>
        have hσ : σ' = σ := fetchAndCache_soft H proxies up σ _ σ' hr
        have hstep : ffaLoop H proxies up apath ((q :: pre2) ++ p :: post) last σ =
            ffaLoop H proxies up apath (pre2 ++ p :: post) last σ := by
          show ffaLoop H proxies up apath (q :: (pre2 ++ p :: post)) last σ = _
          rw [ffaLoop_cons, hr]
          dsimp only
          rw [hσ]
          try simp
        rw [hstep]
        exact ih p post last σ hpre2 hp
    | error e =>
      cases e with
      | net =>
        exfalso
        have ha : attemptOf H proxies up σ apath q = Attempt.abort FErr.net := by
          rw [attemptOf_eq, hr]
          rfl
        rw [ha] at hq
        simp [contAttempt] at hq
      | status c =>
        have ha : attemptOf H proxies up σ apath q =
            (if c = 404 ∨ c = 401 ∨ c = 403 then Attempt.remember c
             else Attempt.abort (FErr.status c)) := by
          rw [attemptOf_eq, hr]
          rfl
        by_cases hc : c = 404 ∨ c = 401 ∨ c = 403
        · have hstep : ffaLoop H proxies up apath ((q :: pre2) ++ p :: post) last σ =
              ffaLoop H proxies up apath (pre2 ++ p :: post) c σ := by
            show ffaLoop H proxies up apath (q :: (pre2 ++ p :: post)) last σ = _
            rw [ffaLoop_cons, hr]
            dsimp only
            rw [if_pos hc]
          rw [hstep]
          exact ih p post c σ hpre2 hp
        · exfalso
          rw [if_neg hc] at ha
          rw [ha] at hq
          simp [contAttempt] at hq

/-- When every proxy before p lets the loop continue and the attempt at p
aborts, the loop surfaces the aborting error as-is. -/
theorem ffaLoop_abort (H : HashImpl) (proxies : List GoProxy) (up : String → UpResp)
    (apath : String) :
    ∀ (pre : List GoProxy) (p : GoProxy) (post : List GoProxy) (e : FErr)
      (last : Nat) (σ : KV),
      (∀ q ∈ pre, contAttempt (attemptOf H proxies up σ apath q) = true) →
      attemptOf H proxies up σ apath p = Attempt.abort e →
      ffaLoop H proxies up apath (pre ++ p :: post) last σ = Except.error e := by
  intro pre
  induction pre with
  | nil =>
    intro p post e last σ _ hp
    rw [attemptOf_eq] at hp
    cases hr : fetchAndCache H proxies up σ (goJoin p.name apath) with
    | ok v =>
      exfalso
      obtain ⟨found, σ''⟩ := v
      rw [hr] at hp
      cases found with
      | true => simp [classifyFA] at hp
      | false => simp [classifyFA] at hp
    | error e2 =>
      rw [hr] at hp
      cases e2 with
      | net =>
        have he : e = FErr.net := by
          simp [classifyFA] at hp
          exact hp.symm
        subst he
        show ffaLoop H proxies up apath (p :: post) last σ = _
        rw [ffaLoop_cons, hr]
      | status c =>
        simp only [classifyFA] at hp
        by_cases hc : c = 404 ∨ c = 401 ∨ c = 403
        · exfalso
          rw [if_pos hc] at hp
          simp at hp
        · rw [if_neg hc] at hp
          simp at hp
          show ffaLoop H proxies up apath (p :: post) last σ = _
          rw [ffaLoop_cons, hr]
          dsimp only
          rw [if_neg hc, hp]
  | cons q pre2 ih =>
    intro p post e last σ hall hp
    have hq := hall q (List.mem_cons_self q pre2)
    have hpre2 : ∀ r ∈ pre2, contAttempt (attemptOf H proxies up σ apath r) = true :=
      fun r hr => hall r (List.mem_cons_of_mem q hr)
    cases hr : fetchAndCache H proxies up σ (goJoin q.name apath) with
    | ok v =>
      obtain ⟨found, σ'⟩ := v
      cases found with
      | true =>
        exfalso
        have ha : attemptOf H proxies up σ apath q = Attempt.hit := by
          rw [attemptOf_eq, hr]
          rfl
        rw [ha] at hq
        simp [contAttempt] at hq
      | false =>
        have hσ : σ' = σ := fetchAndCache_soft H proxies up σ _ σ' hr
        have hstep : ffaLoop H proxies up apath ((q :: pre2) ++ p :: post) last σ =
            ffaLoop H proxies up apath (pre2 ++ p :: post) last σ := by
          show ffaLoop H proxies up apath (q :: (pre2 ++ p :: post)) last σ = _
          rw [ffaLoop_cons, hr]
          dsimp only
          rw [hσ]
          try simp
        rw [hstep]
        exact ih p post e last σ hpre2 hp
    | error e2 =>
      cases e2 with
      | net =>
        exfalso
        have ha : attemptOf H proxies up σ apath q = Attempt.abort FErr.net := by
          rw [attemptOf_eq, hr]
          rfl
        rw [ha] at hq
        simp [contAttempt] at hq
      | status c =>
        have ha : attemptOf H proxies up σ apath q =
            (if c = 404 ∨ c = 401 ∨ c = 403 then Attempt.remember c
             else Attempt.abort (FErr.status c)) := by
          rw [attemptOf_eq, hr]
          rfl
        by_cases hc : c = 404 ∨ c = 401 ∨ c = 403
        · have hstep : ffaLoop H proxies up apath ((q :: pre2) ++ p :: post) last σ =
              ffaLoop H proxies up apath (pre2 ++ p :: post) c σ := by
            show ffaLoop H proxies up apath (q :: (pre2 ++ p :: post)) last σ = _
            rw [ffaLoop_cons, hr]
            dsimp only
            rw [if_pos hc]
          rw [hstep]
          exact ih p post e c σ hpre2 hp
        · exfalso
          rw [if_neg hc] at ha
          rw [ha] at hq
          simp [contAttempt] at hq


/-- Counterexample for C1 as stated: a single registered proxy whose
upstream always answers 404 ends the run as a plain not-found, not as a
remembered 404 status error — FetchAndCache reports upstream 404 as a
soft miss, so a 404 is never remembered as the last relevant failure. -/
theorem claim_C1_counterexample :
    fetchFromAny ⟨fun _ => [], fun _ => []⟩ [⟨"a", "http://u"⟩]
        (fun _ => UpResp.resp 404 "" []) [] "x" = Except.ok ("", false, []) ∧
    (Except.ok ("", false, ([] : KV)) : Except FErr (String × Bool × KV)) ≠
      Except.error (FErr.status 404) :=
  ⟨by decide, by decide⟩

/-- C1 (amended): FetchFromAny tries the proxies in listing order; an
upstream 404 is a soft miss that is never remembered, upstream 401/403 are
remembered as the last relevant failure and the run continues; a hit stops
the run with the winning key; any other failure aborts as-is; when every
attempt only continues, a remembered status is returned as the final error
and otherwise the run ends as a plain not-found with the cache untouched. -/
theorem claim_C1_fallback_order (H : HashImpl) (proxies : List GoProxy)
    (up : String → UpResp) (σ : KV) (apath : String) :
    (∀ pr name ap pr2 ct body,
      splitProxyKey (goJoin pr.name apath) = some (name, ap) →
      findByName proxies name = some pr2 →
      up (urlOf pr2 ap) = UpResp.resp 404 ct body →
      attemptOf H proxies up σ apath pr = Attempt.soft) ∧
    (∀ pr name ap pr2 c ct body,
      splitProxyKey (goJoin pr.name apath) = some (name, ap) →
      findByName proxies name = some pr2 →
      up (urlOf pr2 ap) = UpResp.resp c ct body →
      c = 401 ∨ c = 403 →
      attemptOf H proxies up σ apath pr = Attempt.remember c) ∧
    (∀ pre p post e, proxies = pre ++ p :: post →
      (∀ q ∈ pre, contAttempt (attemptOf H proxies up σ apath q) = true) →
      attemptOf H proxies up σ apath p = Attempt.abort e →
      fetchFromAny H proxies up σ apath = Except.error e) ∧
    (∀ pre p post, proxies = pre ++ p :: post →
      (∀ q ∈ pre, contAttempt (attemptOf H proxies up σ apath q) = true) →
      attemptOf H proxies up σ apath p = Attempt.hit →
      ∃ σ', fetchFromAny H proxies up σ apath =
        Except.ok (goJoin p.name apath, true, σ')) ∧
    ((∀ pr ∈ proxies, contAttempt (attemptOf H proxies up σ apath pr) = true) →
      fetchFromAny H proxies up σ apath =
        (if lastStatus H proxies up σ apath proxies 0 ≠ 0 then
          Except.error (FErr.status (lastStatus H proxies up σ apath proxies 0))
         else Except.ok ("", false, σ))) := by
  refine ⟨?_, ?_, ?_, ?_, ?_⟩
  · intro pr name ap pr2 ct body hsp hfind hup
    rw [attemptOf_eq]
    unfold fetchAndCache
    rw [hsp]
    dsimp only
    rw [hfind]
    dsimp only
    rw [hup]
    dsimp only
    rw [if_pos rfl]
    rfl
  · intro pr name ap pr2 c ct body hsp hfind hup hc
    have h404 : ¬(c = 404) := by rcases hc with hc | hc <;> omega
    have h300 : 300 ≤ c := by rcases hc with hc | hc <;> omega
    rw [attemptOf_eq]
    unfold fetchAndCache
    rw [hsp]
    dsimp only
    rw [hfind]
    dsimp only
    rw [hup]
    dsimp only
    rw [if_neg h404, if_pos h300]
    show (if c = 404 ∨ c = 401 ∨ c = 403 then Attempt.remember c
          else Attempt.abort (FErr.status c)) = Attempt.remember c
    rw [if_pos (Or.inr hc)]
  · intro pre p post e hsplit hall hp
    subst hsplit
    exact ffaLoop_abort H (pre ++ p :: post) up apath pre p post e 0 σ hall hp
  · intro pre p post hsplit hall hp
    subst hsplit
    exact ffaLoop_hit H (pre ++ p :: post) up apath pre p post 0 σ hall hp
  · intro hall
    exact ffaLoop_exhaust H proxies up apath proxies 0 σ hall

/-- Witness for C1 on two proxies that both answer 403: the final result
is the remembered 403 status, not a generic error. -/
theorem claim_C1_witness :
    fetchFromAny ⟨fun _ => [], fun _ => []⟩ [⟨"a", "http://u"⟩, ⟨"b", "http://v"⟩]
        (fun _ => UpResp.resp 403 "" []) [] "x" =
      Except.error (FErr.status 403) :=
  ((claim_C1_fallback_order ⟨fun _ => [], fun _ => []⟩
      [⟨"a", "http://u"⟩, ⟨"b", "http://v"⟩]
      (fun _ => UpResp.resp 403 "" []) [] "x").2.2.2.2 (by decide)).trans (by decide)

end Heimdall




